import Mathlib

set_option linter.unusedVariables false

/-!
A shallow embedding of the core of the ibdd BDD package (shared ROBDD with
complement edges).  Nodes live in a growing store (a list of `DDNode`); the
position of a node in the store plays the role of the C++ heap address.  An
`Edge` is a node identity plus the complement bit that the C++ code keeps in
the least significant bit of a tagged pointer.  `Edge.enc` reproduces the
tagged machine word (addresses are 4-aligned and nonzero, modelled as
`4 * (ptr + 1)`), which is what the tables store in their keys and values.

The functions `standardize`, `isTerminal`, `findAdd`, `getCofactor`, `iteOp`
(for `Manager::ite`), `existRecur` and `exist` are translated directly from
`Manager.cpp` and `BDDNode.cpp`.  Recursive operations take an explicit fuel
argument and return `none` when it runs out; every concrete run below uses a
fuel that is large enough.
-/

structure Edge where
  ptr : Nat
  c : Bool
deriving DecidableEq, Repr

/-- Toggling the complement bit (`BDDNode::operator!`). -/
def Edge.neg (e : Edge) : Edge := ⟨e.ptr, !e.c⟩

/-- The tagged machine word of an edge (`BDDNode::getDDNode`): the node
address (4-aligned, nonzero) plus the complement bit in bit 0. -/
def Edge.enc (e : Edge) : Nat := 4 * (e.ptr + 1) + (if e.c then 1 else 0)

/-- Decoding a tagged machine word back into an edge (the `BDDNode(size_t)`
constructor together with `getDDNodeWithEdge`/`isComplementEdge`).
`dec 0` (the null edge stored in the leaf) decodes to a junk edge that the
engine never dereferences. -/
def dec (n : Nat) : Edge := ⟨n / 4 - 1, decide (n % 2 = 1)⟩

/-- Logical 1: the leaf (store position 0) behind a regular edge. -/
def term1 : Edge := ⟨0, false⟩

/-- Logical 0: the leaf behind a complement edge. -/
def term0 : Edge := ⟨0, true⟩

/-- A stored node: variable index plus the low and high child edges.
(The reference counter is modelled separately, see `RCNode` below.) -/
structure DDNode where
  index : Nat
  low : Edge
  high : Edge
deriving DecidableEq, Repr

instance : Inhabited DDNode := ⟨⟨0, dec 0, dec 0⟩⟩

/-- A table key: the three `size_t` fields of `TableKey`.  For the computed
table all three are tagged edge words; for the unique table `f` is a variable
index and `g`, `h` are the tagged high/low edge words. -/
structure TableKey where
  f : Nat
  g : Nat
  h : Nat
deriving DecidableEq, Repr

/-- `TableKey::operator()`: `(g + h) >> f`.  (In C++ the shift amount can
exceed the word size, which is undefined; we use the mathematical shift.) -/
def TableKey.hash (k : TableKey) : Nat := (k.g + k.h) >>> k.f

/-- The engine state: node store, unique table (chained buckets), computed
table (direct mapped slots) and the variable support vector. -/
structure Mgr where
  store : List DDNode
  ut : List (List (TableKey × Nat))
  utsize : Nat
  ct : List (TableKey × Nat)
  ctsize : Nat
  variableCounter : List Edge
deriving DecidableEq, Repr

/-- Reading a stored node (a dereference of the node address). -/
def Mgr.nodeD (m : Mgr) (i : Nat) : DDNode := m.store.getD i default

/-- `BDDNode::getIndex`: the variable index at the root of an edge. -/
def Mgr.idxE (m : Mgr) (e : Edge) : Nat := (m.nodeD e.ptr).index

/-- `UTable::find`: scan the bucket of the key for an exact key match. -/
def Mgr.utFind (m : Mgr) (k : TableKey) : Option Nat :=
  (((m.ut.getD (k.hash % m.utsize) []).find? (fun p => p.1 == k)).map (·.2))

/-- `UTable::add`: append the pair to the bucket of the key. -/
def Mgr.utAdd (m : Mgr) (k : TableKey) (v : Nat) : Mgr :=
  let pos := k.hash % m.utsize
  { m with ut := m.ut.set pos ((m.ut.getD pos []) ++ [(k, v)]) }

/-- `Manager::findAdd`: look the triple up in the unique table; if absent,
allocate a new node (`new DDNode(f, h, g)`: `g` is the high word, `h` the low
word) and register it.  Returns the node identity. -/
def Mgr.findAdd (m : Mgr) (f g h : Nat) : Nat × Mgr :=
  let key : TableKey := ⟨f, g, h⟩
  match m.utFind key with
  | some n => (n, m)
  | none =>
    let n := m.store.length
    let nd : DDNode := ⟨f, dec h, dec g⟩
    (n, Mgr.utAdd { m with store := m.store ++ [nd] } key n)

/-- `CTable::hasNext`: a hit only on an exact key match at the key's slot. -/
def Mgr.ctLookup (m : Mgr) (k : TableKey) : Option Nat :=
  let slot := m.ct.getD (k.hash % m.ctsize) (⟨0, 0, 0⟩, 0)
  if slot.1 = k then some slot.2 else none

/-- `CTable::insert`: unconditional overwrite of the key's slot.  (C++ leaves
the slots of a fresh table uninitialized; we initialize them with the key
`(0,0,0)`, which no lookup can ever match since real keys are tagged words
that are at least 4.) -/
def Mgr.ctInsert (m : Mgr) (k : TableKey) (v : Nat) : Mgr :=
  { m with ct := m.ct.set (k.hash % m.ctsize) (k, v) }

/-- The identical-rules block of `Manager::standardize` (an if/else-if
cascade rewriting `g` and `h`). -/
def identRules (f g h : Edge) : Edge × Edge :=
  if f = g then (term1, h)
  else if f = h then (g, term0)
  else if f = h.neg then (g, term1)
  else if f = g.neg then (term0, h)
  else (g, h)

/-- The symmetrical-rules block of `Manager::standardize` (an if/else-if
cascade; each branch swaps and possibly negates under an index test). -/
def symmRules (m : Mgr) (f g h : Edge) : Edge × Edge × Edge :=
  if g = term1 then
    if m.idxE f > m.idxE h then (h, g, f) else (f, g, h)
  else if g = term0 then
    if m.idxE f > m.idxE h then (h.neg, g, f.neg) else (f, g, h)
  else if g = h.neg then
    if m.idxE f > m.idxE g then (g, f, f.neg) else (f, g, h)
  else if h = term1 then
    if m.idxE f > m.idxE g then (g.neg, f.neg, h) else (f, g, h)
  else if h = term0 then
    if m.idxE f > m.idxE g then (g, f, h) else (f, g, h)
  else (f, g, h)

/-- The complementary-rules block of `Manager::standardize`: two
unconditionally applied rules; the second toggles the flip flag. -/
def complRules (f g h : Edge) (b : Bool) : Edge × Edge × Edge × Bool :=
  let s := if f.c then (f.neg, h, g) else (f, g, h)
  if s.2.1.c then (s.1, s.2.1.neg, s.2.2.neg, !b) else (s.1, s.2.1, s.2.2, b)

/-- `Manager::standardize`: the identical, symmetrical and complementary
rule groups applied in source order. -/
def Mgr.standardize (m : Mgr) (f g h : Edge) (b : Bool) :
    Edge × Edge × Edge × Bool :=
  let gh := identRules f g h
  let fgh := symmRules m f gh.1 gh.2
  complRules fgh.1 fgh.2.1 fgh.2.2 b

/-- `Manager::isTerminal`: the four terminal cases of ITE, in source order. -/
def isTerminal (f g h : Edge) : Option Edge :=
  if f = term1 then some g
  else if f = term0 then some h
  else if h = term0 ∧ g = term1 then some f
  else if g = h then some g
  else none

/-- `BDDNode::getCofactor`.  `fac = true` asks for the then-cofactor (high),
`fac = false` for the else-cofactor (low).  In the recursive case the source
reads

    if ( t.isComplementEdge() )
        t = !t;
        e = !e;

so only the negation of `t` is guarded by the condition; `e` is negated
unconditionally.  The translation reproduces exactly that. -/
def getCofactor : Nat → Mgr → Edge → Nat → Bool → Option (Edge × Mgr)
  | 0, _, _, _, _ => none
  | fuel + 1, m, e, index, fac =>
    if index > m.idxE e then some (e, m)
    else if index = m.idxE e then
      let nd := m.nodeD e.ptr
      if fac then some (if e.c then nd.high.neg else nd.high, m)
      else some (if e.c then nd.low.neg else nd.low, m)
    else do
      let nd := m.nodeD e.ptr
      let (t, m) ← getCofactor fuel m nd.high index fac
      let (e2, m) ← getCofactor fuel m nd.low index fac
      if t = e2 then
        pure (if e.c then t.neg else t, m)
      else
        let edgeF : Bool := e.c != t.c
        let t2 := if t.c then t.neg else t
        let e3 := e2.neg
        let (n, m) := m.findAdd (m.idxE e) t2.enc e3.enc
        pure (⟨n, edgeF⟩, m)

/-- The top-variable computation of `Manager::ite` (lines 274-278): start
from `f.getIndex()` and replace it whenever `g` or `h` carries a greater
index — the chain computes the maximum of the three indices. -/
def topVar (m : Mgr) (f g h : Edge) : Nat :=
  let top := m.idxE f
  let top := if m.idxE g > top then m.idxE g else top
  if m.idxE h > top then m.idxE h else top

/-- `Manager::ite`: standardize, terminal cases, computed-table lookup, top
variable (the if-chain of the source takes the maximum index), cofactors,
recursion, isomorphism check, node construction and memoization. -/
def iteOp : Nat → Mgr → Edge → Edge → Edge → Option (Edge × Mgr)
  | 0, _, _, _, _ => none
  | fuel + 1, m, f0, g0, h0 =>
    let s := m.standardize f0 g0 h0 false
    let f := s.1
    let g := s.2.1
    let h := s.2.2.1
    let cE := s.2.2.2
    match isTerminal f g h with
    | some r => some (if cE then r.neg else r, m)
    | none =>
      let key : TableKey := ⟨f.enc, g.enc, h.enc⟩
      match m.ctLookup key with
      | some v => some (if cE then (dec v).neg else dec v, m)
      | none => do
        let top := topVar m f g h
        let (fl, m) ← getCofactor (fuel + 1) m f top true
        let (gl, m) ← getCofactor (fuel + 1) m g top true
        let (hl, m) ← getCofactor (fuel + 1) m h top true
        let (f0c, m) ← getCofactor (fuel + 1) m f top false
        let (g0c, m) ← getCofactor (fuel + 1) m g top false
        let (h0c, m) ← getCofactor (fuel + 1) m h top false
        let (t, m) ← iteOp fuel m fl gl hl
        let (e, m) ← iteOp fuel m f0c g0c h0c
        if t = e then
          pure (if cE then t.neg else t, m)
        else
          let (n, m) := m.findAdd top t.enc e.enc
          let res : Edge := ⟨n, false⟩
          let m := m.ctInsert key res.enc
          pure (if cE then res.neg else res, m)

/-- `BDDNode::operator+` (OR): `ite(f, 1, g)`. -/
def orOp (fuel : Nat) (m : Mgr) (f g : Edge) : Option (Edge × Mgr) :=
  iteOp fuel m f term1 g

/-- `BDDNode::operator*` (AND): `ite(f, g, 0)`. -/
def andOp (fuel : Nat) (m : Mgr) (f g : Edge) : Option (Edge × Mgr) :=
  iteOp fuel m f g term0

/-- `BDDNode::operator^` (XOR): `ite(f, !g, g)`. -/
def xorOp (fuel : Nat) (m : Mgr) (f g : Edge) : Option (Edge × Mgr) :=
  iteOp fuel m f g.neg g

/-- `Manager::existRecur`: leaf and independent-variable early exits,
root cofactors, computed-table lookup keyed by `(node, high, low)` (note:
the quantified variable `index` is not part of the key), the `index == u`
case via `low + high`, and the recursive case with its complement-edge
normalization. -/
def existRecur : Nat → Mgr → Edge → Nat → Option (Edge × Mgr)
  | 0, _, _, _ => none
  | fuel + 1, m, e, index =>
    if e.ptr = 0 then some (e, m)
    else
      let u := m.idxE e
      if u < index then some (e, m)
      else do
        let (hi, m) ← getCofactor (fuel + 1) m e u true
        let (lo, m) ← getCofactor (fuel + 1) m e u false
        let k : TableKey := ⟨e.enc, hi.enc, lo.enc⟩
        match m.ctLookup k with
        | some v => some (dec v, m)
        | none =>
          if index = u then do
            let (res, m) ← orOp fuel m lo hi
            let m := m.ctInsert k res.enc
            pure (res, m)
          else do
            let (t, m) ← existRecur fuel m hi index
            let (e2, m) ← existRecur fuel m lo index
            if t = e2 then
              let m := m.ctInsert k t.enc
              pure (t, m)
            else
              let cE := t.c
              let t2 := if t.c then t.neg else t
              let e3 := if cE then e2.neg else e2
              let (n, m) := m.findAdd u t2.enc e3.enc
              let res0 : Edge := ⟨n, false⟩
              let res := if cE then res0.neg else res0
              let m := m.ctInsert k res.enc
              pure (res, m)

/-- `BDDNode::exist`: variable 0 is rejected, otherwise `existRecur`. -/
def existOp (fuel : Nat) (m : Mgr) (e : Edge) (index : Nat) :
    Option (Edge × Mgr) :=
  if index = 0 then some (e, m) else existRecur fuel m e index

/-- The variable-creation loop of the `Manager` constructor:
`BDDNode(i, terminal1, terminal0, regular)` for `i = 1..variables`. -/
def addVariables : Nat → Nat → Mgr → Mgr
  | 0, _, m => m
  | left + 1, i, m =>
    let p := m.findAdd i term1.enc term0.enc
    addVariables left (i + 1)
      { p.2 with variableCounter := p.2.variableCounter ++ [⟨p.1, false⟩] }

/-- The `Manager` constructor: load both tables, create the leaf via
`findAdd(0, 0, 0)`, define the terminals and materialize the variables. -/
def mgrInit (numVars uTableSize cTableSize : Nat) : Mgr :=
  let m : Mgr :=
    ⟨[], List.replicate uTableSize [], uTableSize,
     List.replicate cTableSize (⟨0, 0, 0⟩, 0), cTableSize, []⟩
  let p := m.findAdd 0 0 0
  addVariables numVars 1 { p.2 with variableCounter := [term1] }

/-- `Manager::createVariable`. -/
def Mgr.createVariable (m : Mgr) (i : Nat) : Edge :=
  m.variableCounter.getD i term1

/-- The Boolean function denoted by an edge: the value at an assignment.
The complement bit negates the function of the target node; the leaf node
denotes the constant true. -/
def evalE : Nat → Mgr → (Nat → Bool) → Edge → Bool
  | 0, _, _, e => !e.c
  | fuel + 1, m, a, e =>
    if e.ptr = 0 then !e.c
    else
      let nd := m.nodeD e.ptr
      Bool.xor
        (if a nd.index then evalE fuel m a nd.high else evalE fuel m a nd.low)
        e.c

/-! ### The reference counter (`DDNode::operator++` / `operator--`)

`DDNode::id` is a 16-bit bit-field; the operators are a bare `id++` and
`id--` with no saturation guard, so arithmetic is modulo `2 ^ 16`. -/

/-- `DDNode::operator++`: `id++` on the 16-bit bit-field. -/
def incId (id : Nat) : Nat := (id + 1) % 65536

/-- `DDNode::operator--`: `id--` on the 16-bit bit-field. -/
def decId (id : Nat) : Nat := (id + 65535) % 65536

/-- A stored node together with its reference counter, for the refcount
claims: the key triple as raw words plus the 16-bit counter. -/
structure RCNode where
  index : Nat
  g : Nat
  h : Nat
  id : Nat
deriving DecidableEq, Repr

instance : Inhabited RCNode := ⟨⟨0, 0, 0, 1⟩⟩

/-- Unique-table search by key triple (refcounts are untouched by a find). -/
def rcFind : List RCNode → Nat → Nat → Nat → Nat → Option Nat
  | [], _, _, _, _ => none
  | nd :: rest, i, f, g, h =>
    if nd.index = f ∧ nd.g = g ∧ nd.h = h then some i
    else rcFind rest (i + 1) f g h

/-- `Manager::findAdd` with refcounts: a fresh node is allocated with its
counter initialized to 1 (the `DDNode` constructors); an existing node is
returned with its counter untouched. -/
def rcFindAdd (s : List RCNode) (f g h : Nat) : Nat × List RCNode :=
  match rcFind s 0 f g h with
  | some i => (i, s)
  | none => (s.length, s ++ [⟨f, g, h, 1⟩])

/-- `++(*node)`: bump the counter of node `i`. -/
def rcBump (s : List RCNode) (i : Nat) : List RCNode :=
  s.set i { s.getD i default with id := incId (s.getD i default).id }

/-- The `BDDNode(size_t f, size_t g, size_t h, edge)` constructor:
`findAdd` followed by `++(*node)` for the constructed handle. -/
def rcMkBDDNode (s : List RCNode) (f g h : Nat) : Nat × List RCNode :=
  let p := rcFindAdd s f g h
  (p.1, rcBump p.2 p.1)

/-! ### Concrete engine runs used by the claim theorems -/

/-- A two-variable engine (unique and computed table of size 7). -/
def mgrA : Mgr := mgrInit 2 7 7

/-- The conjunction `x1 AND x2` in `mgrA` (an `a * b` of the surface). -/
def runAndA : Option (Edge × Mgr) := andOp 20 mgrA (mgrA.createVariable 1) (mgrA.createVariable 2)

/-- The run refuting the cofactor law: `f := x1 AND x2`; the then-cofactor
of `f` with respect to variable 1 (which takes the recursive case of
`getCofactor`), the node it builds, and the engine value of
`(x1 AND cofactor(f,1,then)) OR (!x1 AND cofactor(f,1,else))`, together
with the values of `f` and of that combination at the assignment
`x1 = 1, x2 = 0`. -/
def cofactorBugRun : Option (Edge × DDNode × Edge × Edge × Bool × Bool) := do
  let (fAB, m) ← runAndA
  let (cT, m) ← getCofactor 20 m fAB 1 true
  let (cEl, m) ← getCofactor 20 m fAB 1 false
  let (l, m) ← andOp 20 m (mgrA.createVariable 1) cT
  let (r, m) ← andOp 20 m (mgrA.createVariable 1).neg cEl
  let (rhs, m) ← orOp 20 m l r
  let asg : Nat → Bool := fun n => n = 1
  pure (fAB, m.nodeD cT.ptr, cT, rhs, evalE 20 m asg fAB, evalE 20 m asg rhs)

/-- The run refuting computed-table transparency: `f := x1 AND x2`;
`exist(f, 2)` (which caches its result under the key `(f, x1, 0)` that does
not mention the quantified variable), then `exist(f, 1)` once against the
polluted table and once after discarding the computed table. -/
def cacheTransparencyRun : Option (Edge × Edge × Edge) := do
  let (fAB, m) ← runAndA
  let (r1, m) ← existOp 20 m fAB 2
  let (r2, m2) ← existOp 20 m fAB 1
  let mclr : Mgr := { m with ct := List.replicate m.ctsize (⟨0, 0, 0⟩, 0) }
  let (r3, _) ← existOp 20 mclr fAB 1
  pure (r1, r2, r3)

/-- The run refuting `exist(f,v) == cofactor(f,v,then) OR cofactor(f,v,else)`:
`f := x1 AND x2`, `v := 1`; the left side, the right side, and the values of
both at the assignment that sets every variable to false. -/
def existCofactorRun : Option (Edge × Edge × Bool × Bool) := do
  let (fAB, m) ← runAndA
  let (lhs, m) ← existOp 20 m fAB 1
  let (cT, m) ← getCofactor 20 m fAB 1 true
  let (cEl, m) ← getCofactor 20 m fAB 1 false
  let (rhs, m) ← orOp 20 m cT cEl
  let asg : Nat → Bool := fun _ => false
  pure (lhs, rhs, evalE 20 m asg lhs, evalE 20 m asg rhs)

/-- A three-variable engine (both tables of size 11). -/
def mgrB : Mgr := mgrInit 3 11 11

/-- The run refuting the ITE ground truth: `e := ite(x3, x2, x1)`;
`exist(e, 3)` caches its result under the key `(e, x2, x1)`; the subsequent
`ite(e, x2, x1)` hits that foreign entry, while the surface combination
`(e AND x2) OR (!e AND x1)` computes the correct function.  The tuple also
records the values of both results at `x1 = 1, x2 = 0, x3 = 0`. -/
def itePoisonRun : Option (Edge × Edge × Bool × Bool) := do
  let (eE, m) ← iteOp 20 mgrB (mgrB.createVariable 3) (mgrB.createVariable 2) (mgrB.createVariable 1)
  let (ex, m) ← existOp 20 m eE 3
  let (r1, m) ← iteOp 20 m eE (mgrB.createVariable 2) (mgrB.createVariable 1)
  let (a, m) ← andOp 20 m eE (mgrB.createVariable 2)
  let (b, m) ← andOp 20 m eE.neg (mgrB.createVariable 1)
  let (r2, m) ← orOp 20 m a b
  let asg : Nat → Bool := fun n => n = 1
  pure (r1, r2, evalE 20 m asg r1, evalE 20 m asg r2)

/-- Creating a node for a fresh triple through the
`BDDNode(size_t, size_t, size_t, edge)` constructor, starting from a store
that holds only the leaf: the variable-1 node `(1, high = 1, low = 0)`. -/
def freshNodeCreate : Nat × List RCNode :=
  rcMkBDDNode [⟨0, 0, 0, 1⟩] 1 term1.enc term0.enc

/-! ### Invariants

The structural invariants of an engine state, phrased over the raw record
components so that operations that leave a component untouched preserve the
corresponding invariant syntactically. -/

/-- Reading a node out of a raw store. -/
def nodeL (s : List DDNode) (i : Nat) : DDNode := s.getD i default

/-- The root index of an edge over a raw store. -/
def idxL (s : List DDNode) (e : Edge) : Nat := (nodeL s e.ptr).index

/-- An edge whose target lies inside the store. -/
def validL (s : List DDNode) (e : Edge) : Prop := e.ptr < s.length

/-- A well-formed interior node: positive index, regular high edge, children
inside the store and strictly smaller child indices (the code's order puts
greater indices closer to the root). -/
def WFnodeL (s : List DDNode) (nd : DDNode) : Prop :=
  1 ≤ nd.index ∧ nd.high.c = false ∧
  nd.high.ptr < s.length ∧ nd.low.ptr < s.length ∧
  (nodeL s nd.high.ptr).index < nd.index ∧
  (nodeL s nd.low.ptr).index < nd.index

/-- A well-formed store: nonempty, the leaf at position 0 with index 0, and
every other node well formed. -/
def WFstoreL (s : List DDNode) : Prop :=
  0 < s.length ∧ (nodeL s 0).index = 0 ∧
  (∀ i, 0 < i → i < s.length → WFnodeL s (nodeL s i)) ∧
  nodeL s 0 = ⟨0, dec 0, dec 0⟩

/-- The largest root index among the three decoded components of a
computed-table key. -/
def maxKeyIdx (s : List DDNode) (k : TableKey) : Nat :=
  max (idxL s (dec k.f)) (max (idxL s (dec k.g)) (idxL s (dec k.h)))

/-- A computed-table slot is either still in its initial state or holds a
key of three tagged edge words and a tagged result word such that all four
decode to valid edges, a regular (even) key head forces a regular result,
and the result's root index is bounded by the key's. -/
def ctEntryOK (s : List DDNode) (p : TableKey × Nat) : Prop :=
  p = (⟨0, 0, 0⟩, 0) ∨
  (4 ≤ p.1.f ∧ 4 ≤ p.1.g ∧ 4 ≤ p.1.h ∧
   validL s (dec p.1.f) ∧ validL s (dec p.1.g) ∧ validL s (dec p.1.h) ∧
   4 ≤ p.2 ∧ validL s (dec p.2) ∧
   (p.1.f % 2 = 0 → p.2 % 2 = 0) ∧
   idxL s (dec p.2) ≤ maxKeyIdx s p.1)

/-- The computed-table invariant. -/
def CTinvL (s : List DDNode) (ct : List (TableKey × Nat)) (csz : Nat) : Prop :=
  ct.length = csz ∧ 0 < csz ∧
  ∀ i, i < ct.length → ctEntryOK s (ct.getD i (⟨0, 0, 0⟩, 0))

/-- A unique-table entry points to a stored node and its key is either the
leaf key `(0,0,0)` (for node 0) or exactly the triple
`(index, high word, low word)` of the stored node. -/
def utEntryOK (s : List DDNode) (p : TableKey × Nat) : Prop :=
  p.2 < s.length ∧
  ((p.2 = 0 ∧ p.1 = ⟨0, 0, 0⟩) ∨
   p.1 = ⟨(nodeL s p.2).index, (nodeL s p.2).high.enc, (nodeL s p.2).low.enc⟩)

/-- The unique-table invariant. -/
def UTinvL (s : List DDNode) (ut : List (List (TableKey × Nat))) (usz : Nat) :
    Prop :=
  ut.length = usz ∧ 0 < usz ∧
  ∀ b, b < ut.length → ∀ p ∈ ut.getD b [], utEntryOK s p

/-- The full state invariant. -/
def Minv (m : Mgr) : Prop :=
  WFstoreL m.store ∧ CTinvL m.store m.ct m.ctsize ∧
  UTinvL m.store m.ut m.utsize

/-- One engine state extends another: the store only grows (nodes are never
moved or removed) and the table capacities are unchanged. -/
def extendsM (m m2 : Mgr) : Prop :=
  (∃ ext, m2.store = m.store ++ ext) ∧ m2.utsize = m.utsize ∧
  m2.ctsize = m.ctsize

/-- The complement bit the standardizer turns into the flip flag:
`compl h` when `f` is complemented, `compl g` otherwise. -/
def phiC (f g h : Edge) : Bool := if f.c then h.c else g.c

/-- An edge whose target is one of the targets of `f`, `g`, `h` or the
leaf — the closure the standardizer's outputs live in. -/
def ptrFrom (f g h e : Edge) : Prop :=
  e.ptr = f.ptr ∨ e.ptr = g.ptr ∨ e.ptr = h.ptr ∨ e.ptr = 0

/-- The states reachable from a freshly constructed engine through the
public operations (`ite`, `exist`, `cofactor`), applied to edges of the
engine. -/
inductive Reachable : Mgr → Prop where
  | init : ∀ numVars usz csz, 0 < usz → 0 < csz →
      Reachable (mgrInit numVars usz csz)
  | step_ite : ∀ m fuel f g h r m2, Reachable m →
      validL m.store f → validL m.store g → validL m.store h →
      iteOp fuel m f g h = some (r, m2) → Reachable m2
  | step_exist : ∀ m fuel e v r m2, Reachable m →
      validL m.store e →
      existRecur fuel m e v = some (r, m2) → Reachable m2
  | step_cof : ∀ m fuel e v fac r m2, Reachable m →
      validL m.store e →
      getCofactor fuel m e v fac = some (r, m2) → Reachable m2

/-! ### Helper lemmas -/

theorem find?_append_none {α : Type} (p : α → Bool) (l1 l2 : List α)
    (h : l1.find? p = none) : (l1 ++ l2).find? p = l2.find? p := by
  simp [List.find?_append, h]

theorem getD_set_self {α : Type} (l : List α) (i : Nat) (v d : α)
    (h : i < l.length) : (l.set i v).getD i d = v := by
  simp [List.getD, List.getElem?_set_self, h]

theorem getD_append_left {α : Type} (l1 l2 : List α) (i : Nat) (d : α)
    (h : i < l1.length) : (l1 ++ l2).getD i d = l1.getD i d := by
  simp [List.getD, List.getElem?_append, h]

theorem getD_append_at {α : Type} (l1 l2 : List α) (d : α) :
    (l1 ++ l2).getD l1.length d = l2.getD 0 d := by
  simp [List.getD, List.getElem?_append_right, Nat.le_refl]

theorem findAdd_found {m : Mgr} {f g h n : Nat}
    (hf : m.utFind ⟨f, g, h⟩ = some n) : m.findAdd f g h = (n, m) := by
  simp only [Mgr.findAdd, hf]

theorem findAdd_new {m : Mgr} {f g h : Nat}
    (hf : m.utFind ⟨f, g, h⟩ = none) :
    m.findAdd f g h = (m.store.length,
      Mgr.utAdd { m with store := m.store ++ [⟨f, dec h, dec g⟩] }
        ⟨f, g, h⟩ m.store.length) := by
  simp only [Mgr.findAdd, hf]

theorem complRules_regular (f g h : Edge) (b : Bool) :
    ((complRules f g h b).1).c = false ∧ ((complRules f g h b).2.1).c = false := by
  unfold complRules
  cases hf : f.c <;> simp only [if_true, if_false, Bool.false_eq_true] <;>
    split <;> simp_all [Edge.neg]

theorem standardize_fg_regular (m : Mgr) (f g h : Edge) (b : Bool) :
    ((m.standardize f g h b).1).c = false ∧
    ((m.standardize f g h b).2.1).c = false := by
  unfold Mgr.standardize
  exact complRules_regular _ _ _ _

/-! ### Claim theorems -/

/-- C7: the claim states a 16-bit saturating reference counter: an increment
at 65535 must leave 65535 and a decrement must never lower a saturated
counter.  The source (`DDNode::operator++` / `operator--`) performs a bare
`id++` / `id--` on the 16-bit bit-field, so an increment at 65535 wraps the
counter to 0 and a decrement at 65535 lowers it to 65534; this contradicts
the claim and the source's own documentation comment. -/
theorem refcount_increment_wraps :
    incId 65535 = 0 ∧ incId 65535 ≠ 65535 ∧ decId 65535 = 65534 := by decide

/-- C8 counterexample: the claim states that a node freshly allocated by
`find_or_create` has refcount 1, that unit being owned by the returned
handle.  In the source the `DDNode` constructor initializes the counter to 1
and the `BDDNode` constructor then increments it for the returned handle, so
after the constructor returns (exactly one live Edge, the returned one) the
counter reads 2, not 1. -/
theorem fresh_node_refcount_two :
    ((freshNodeCreate.2.getD freshNodeCreate.1 default).id) = 2 ∧
    ((freshNodeCreate.2.getD freshNodeCreate.1 default).id) ≠ 1 := by decide

/-- C8 amended: allocating a node for a fresh triple through the
`BDDNode(size_t, size_t, size_t, edge)` constructor always leaves the node
with refcount 2: one unit from the allocation itself (never owned by any
Edge) plus one unit for the returned handle.  The refcount of an unsaturated
node therefore exceeds the number of live Edges by one. -/
theorem refcount_alloc_plus_handle (s : List RCNode) (f g h : Nat)
    (hfresh : rcFind s 0 f g h = none) :
    ((rcMkBDDNode s f g h).2.getD (rcMkBDDNode s f g h).1 default).id = 2 := by
  have hv : (s ++ [(⟨f, g, h, 1⟩ : RCNode)]).getD s.length default =
      (⟨f, g, h, 1⟩ : RCNode) := by
    rw [getD_append_at]; rfl
  simp only [rcMkBDDNode, rcFindAdd, hfresh, rcBump, hv]
  rw [getD_set_self]
  · rfl
  · simp

theorem refcount_alloc_plus_handle_witness :
    rcFind [(⟨0, 0, 0, 1⟩ : RCNode)] 0 1 4 5 = none ∧
    ((rcMkBDDNode [⟨0, 0, 0, 1⟩] 1 4 5).2.getD
      (rcMkBDDNode [⟨0, 0, 0, 1⟩] 1 4 5).1 default).id = 2 :=
  ⟨by decide, refcount_alloc_plus_handle [⟨0, 0, 0, 1⟩] 1 4 5 (by decide)⟩

/-- C9: two `findAdd` calls with the same key triple return the same node,
the second call leaving the engine unchanged (the first call either finds an
existing node or allocates and registers it; the second finds it). -/
theorem findAdd_unique (m : Mgr) (f g h : Nat)
    (hlen : m.ut.length = m.utsize) (hpos : 0 < m.utsize) :
    ((m.findAdd f g h).2.findAdd f g h).1 = (m.findAdd f g h).1 ∧
    ((m.findAdd f g h).2.findAdd f g h).2 = (m.findAdd f g h).2 := by
  cases hfind : m.utFind ⟨f, g, h⟩ with
  | some n =>
    rw [findAdd_found hfind]
    constructor <;> simp [findAdd_found hfind]
  | none =>
    have hbpos : TableKey.hash ⟨f, g, h⟩ % m.utsize < m.ut.length := by
      rw [hlen]; exact Nat.mod_lt _ hpos
    have hfnone :
        (m.ut.getD (TableKey.hash ⟨f, g, h⟩ % m.utsize) []).find?
          (fun p => p.1 == (⟨f, g, h⟩ : TableKey)) = none := by
      cases hsome : (m.ut.getD (TableKey.hash ⟨f, g, h⟩ % m.utsize) []).find?
          (fun p => p.1 == (⟨f, g, h⟩ : TableKey)) with
      | none => rfl
      | some p =>
        have hcontra : m.utFind ⟨f, g, h⟩ = some p.2 := by
          simp only [Mgr.utFind, hsome]; rfl
        rw [hfind] at hcontra; cases hcontra
    have hfind2 :
        (Mgr.utAdd { m with store := m.store ++ [⟨f, dec h, dec g⟩] }
          ⟨f, g, h⟩ m.store.length).utFind ⟨f, g, h⟩ = some m.store.length := by
      simp only [Mgr.utFind, Mgr.utAdd]
      rw [getD_set_self _ _ _ _ hbpos]
      rw [find?_append_none _ _ _ hfnone]
      simp [List.find?]
    rw [findAdd_new hfind]
    constructor <;> rw [findAdd_found hfind2]

theorem findAdd_unique_witness :
    (mgrA.ut.length = mgrA.utsize ∧ 0 < mgrA.utsize) ∧
    ((mgrA.findAdd 5 4 5).2.findAdd 5 4 5).1 = (mgrA.findAdd 5 4 5).1 ∧
    ((mgrA.findAdd 5 4 5).2.findAdd 5 4 5).2 = (mgrA.findAdd 5 4 5).2 :=
  ⟨by decide, findAdd_unique mgrA 5 4 5 (by decide) (by decide)⟩

/-- C10: for every input triple and every initial flip flag,
`Manager::standardize` returns with `f` and `g` regular (complement bit 0);
only `h` and the flip flag can carry a complement into the terminal-case
check, the cache lookup and the recursion. -/
theorem standardize_outputs_regular (m : Mgr) (f g h : Edge) (b : Bool) :
    ((m.standardize f g h b).1).c = false ∧
    ((m.standardize f g h b).2.1).c = false :=
  standardize_fg_regular m f g h b

/-- C3: the cofactor law fails.  For `f := x1 AND x2` (stored as the node
`(var 2, high = x1, low = 0)`) the then-cofactor with respect to variable 1
takes the recursive case of `getCofactor`; the recursed then-edge is regular,
yet the source negates the recursed else-edge unconditionally (the negation
of `t` alone is guarded by the `if`).  The run builds the malformed node
`(var 2, high = 1, low = 1)` instead of returning `x2`, and the combination
`(x1 AND cofactor(f,1,then)) OR (!x1 AND cofactor(f,1,else))` evaluates to
`x1`, which differs from `f` as an edge and as a function (at
`x1 = 1, x2 = 0` the run records `f = false` but the combination `true`). -/
theorem cofactor_recursive_case_bug :
    cofactorBugRun =
      some (⟨3, false⟩, ⟨2, term1, term1⟩, ⟨4, false⟩, ⟨1, false⟩, false, true)
    ∧ (⟨1, false⟩ : Edge) ≠ ⟨3, false⟩
    ∧ (⟨2, term1, term1⟩ : DDNode).low = (⟨2, term1, term1⟩ : DDNode).high := by
  refine ⟨by decide, by decide, rfl⟩

/-- C4: the computed table is not transparent.  `exist` keys the cache by
`(node, high, low)` without the quantified variable: after
`exist(x1 AND x2, 2)` (correctly `x1`) the call `exist(x1 AND x2, 1)` hits
the stale entry and returns `x1`, while the same call after discarding the
computed table returns `x2` (the correct result).  Discarding the table thus
changes the returned edge. -/
theorem computed_table_not_transparent :
    cacheTransparencyRun = some (⟨1, false⟩, ⟨1, false⟩, ⟨2, false⟩)
    ∧ (⟨1, false⟩ : Edge) ≠ ⟨2, false⟩ := by
  refine ⟨by decide, by decide⟩

/-- C6: the quantification law fails.  For `f := x1 AND x2` and `v := 1`,
`exist(f, 1)` returns `x2` (the correct quantification), but
`cofactor(f,1,then) OR cofactor(f,1,else)` returns the edge to the malformed
node built by the buggy recursive case of `getCofactor`; the two edges
differ, and their functions differ at the all-false assignment (recorded as
`false` versus `true`). -/
theorem exist_cofactor_identity_violation :
    existCofactorRun = some (⟨2, false⟩, ⟨4, false⟩, false, true)
    ∧ (⟨2, false⟩ : Edge) ≠ ⟨4, false⟩ := by
  refine ⟨by decide, by decide⟩

/-- C1: the ITE ground truth fails on the engine.  After
`e := ite(x3, x2, x1)`, the call `exist(e, 3)` stores its result under the
computed-table key `(e, x2, x1)`; the subsequent `ite(e, x2, x1)` hits that
foreign entry and returns the edge of `x1 OR x2`, while the surface
combination `(e AND x2) OR (!e AND x1)` builds the correct function.  The
two edges differ, and their functions differ at `x1 = 1, x2 = 0, x3 = 0`
(recorded as `true` versus `false`). -/
theorem ite_ground_truth_violation :
    itePoisonRun = some (⟨5, false⟩, ⟨10, false⟩, true, false)
    ∧ (⟨5, false⟩ : Edge) ≠ ⟨10, false⟩ := by
  refine ⟨by decide, by decide⟩

/-- C5 counterexample: the claim says the top variable of an ITE step is the
minimum index and that every reachable interior node satisfies
`var(n) < var(n.high.node)`.  In the engine `x1 AND x2` is built at the
maximum index: its root node carries index 2 while its high child carries
index 1, so `var(n) < var(n.high.node)` fails. -/
theorem top_variable_min_counterexample :
    (runAndA.map (fun p =>
      (p.1, p.2.nodeD p.1.ptr,
       (p.2.nodeD (p.2.nodeD p.1.ptr).high.ptr).index))) =
      some (⟨3, false⟩, ⟨2, term0, ⟨1, false⟩⟩, 1)
    ∧ ¬((2 : Nat) < 1) := by
  refine ⟨by decide, by decide⟩

/-! ### Encoding and monotonicity lemmas -/

theorem enc_dec (e : Edge) : dec e.enc = e := by
  obtain ⟨p, c⟩ := e
  cases c <;> simp [dec, Edge.enc] <;> omega

theorem enc_ge4 (e : Edge) : 4 ≤ e.enc := by
  cases hc : e.c <;> simp [Edge.enc, hc] <;> omega

theorem enc_mod2 (e : Edge) : e.enc % 2 = if e.c then 1 else 0 := by
  cases hc : e.c <;> simp [Edge.enc, hc] <;> omega

theorem enc_inj {e1 e2 : Edge} (h : e1.enc = e2.enc) : e1 = e2 := by
  rw [← enc_dec e1, ← enc_dec e2, h]

theorem dec_c_of_even {v : Nat} (h : v % 2 = 0) : (dec v).c = false := by
  simp [dec]; omega

theorem nodeL_append (s ext : List DDNode) (i : Nat) (h : i < s.length) :
    nodeL (s ++ ext) i = nodeL s i := by
  unfold nodeL
  exact getD_append_left s ext i default h

theorem nodeL_append_at (s ext : List DDNode) (nd : DDNode)
    (h : ext = [nd]) : nodeL (s ++ ext) s.length = nd := by
  subst h
  unfold nodeL
  rw [getD_append_at]
  rfl

theorem idxL_append (s ext : List DDNode) (e : Edge)
    (h : validL s e) : idxL (s ++ ext) e = idxL s e := by
  unfold idxL
  rw [nodeL_append s ext e.ptr h]

theorem validL_append (s ext : List DDNode) (e : Edge)
    (h : validL s e) : validL (s ++ ext) e := by
  unfold validL at h ⊢
  simp only [List.length_append]
  omega

theorem WFnodeL_append (s ext : List DDNode) (nd : DDNode)
    (h : WFnodeL s nd) : WFnodeL (s ++ ext) nd := by
  obtain ⟨h1, h2, h3, h4, h5, h6⟩ := h
  refine ⟨h1, h2, ?_, ?_, ?_, ?_⟩
  · exact validL_append s ext nd.high h3
  · exact validL_append s ext nd.low h4
  · rw [nodeL_append s ext _ h3]; exact h5
  · rw [nodeL_append s ext _ h4]; exact h6

theorem ctEntryOK_append (s ext : List DDNode) (p : TableKey × Nat)
    (h : ctEntryOK s p) : ctEntryOK (s ++ ext) p := by
  rcases h with h | ⟨h1, h2, h3, h4, h5, h6, h7, h8, h9, h10⟩
  · exact Or.inl h
  · refine Or.inr ⟨h1, h2, h3, validL_append s ext _ h4,
      validL_append s ext _ h5, validL_append s ext _ h6, h7,
      validL_append s ext _ h8, h9, ?_⟩
    unfold maxKeyIdx
    rw [idxL_append s ext _ h8, idxL_append s ext _ h4,
      idxL_append s ext _ h5, idxL_append s ext _ h6]
    exact h10

theorem utEntryOK_append (s ext : List DDNode) (p : TableKey × Nat)
    (h : utEntryOK s p) : utEntryOK (s ++ ext) p := by
  obtain ⟨h1, h2⟩ := h
  refine ⟨by simp only [List.length_append]; omega, ?_⟩
  rcases h2 with h2 | h2
  · exact Or.inl h2
  · right
    rw [nodeL_append s ext _ h1]
    exact h2

theorem extendsM_refl (m : Mgr) : extendsM m m :=
  ⟨⟨[], by simp⟩, rfl, rfl⟩

theorem extendsM_trans {m1 m2 m3 : Mgr}
    (h1 : extendsM m1 m2) (h2 : extendsM m2 m3) : extendsM m1 m3 := by
  obtain ⟨⟨e1, he1⟩, hu1, hc1⟩ := h1
  obtain ⟨⟨e2, he2⟩, hu2, hc2⟩ := h2
  exact ⟨⟨e1 ++ e2, by rw [he2, he1, List.append_assoc]⟩,
    hu2.trans hu1, hc2.trans hc1⟩

theorem validL_ext {m m2 : Mgr} {e : Edge} (hx : extendsM m m2)
    (h : validL m.store e) : validL m2.store e := by
  obtain ⟨⟨ext, hext⟩, _, _⟩ := hx
  rw [hext]
  exact validL_append _ _ _ h

theorem idxL_ext {m m2 : Mgr} {e : Edge} (hx : extendsM m m2)
    (h : validL m.store e) : idxL m2.store e = idxL m.store e := by
  obtain ⟨⟨ext, hext⟩, _, _⟩ := hx
  rw [hext]
  exact idxL_append _ _ _ h


/-! ### Standardizer specification -/

theorem identRules_cases (f g h : Edge) :
    (f = g ∧ identRules f g h = (term1, h)) ∨
    (f = h ∧ identRules f g h = (g, term0)) ∨
    (f = h.neg ∧ identRules f g h = (g, term1)) ∨
    (f = g.neg ∧ identRules f g h = (term0, h)) ∨
    identRules f g h = (g, h) := by
  unfold identRules
  by_cases h1 : f = g
  · exact Or.inl ⟨h1, by rw [if_pos h1]⟩
  · rw [if_neg h1]
    by_cases h2 : f = h
    · exact Or.inr (Or.inl ⟨h2, by rw [if_pos h2]⟩)
    · rw [if_neg h2]
      by_cases h3 : f = h.neg
      · exact Or.inr (Or.inr (Or.inl ⟨h3, by rw [if_pos h3]⟩))
      · rw [if_neg h3]
        by_cases h4 : f = g.neg
        · exact Or.inr (Or.inr (Or.inr (Or.inl ⟨h4, by rw [if_pos h4]⟩)))
        · exact Or.inr (Or.inr (Or.inr (Or.inr (by rw [if_neg h4]))))

theorem symmRules_cases (m : Mgr) (f g h : Edge) :
    symmRules m f g h = (f, g, h) ∨
    (g = term1 ∧ symmRules m f g h = (h, g, f)) ∨
    (g = term0 ∧ symmRules m f g h = (h.neg, g, f.neg)) ∨
    (g = h.neg ∧ symmRules m f g h = (g, f, f.neg)) ∨
    (h = term1 ∧ symmRules m f g h = (g.neg, f.neg, h)) ∨
    (h = term0 ∧ symmRules m f g h = (g, f, h)) := by
  unfold symmRules
  by_cases h1 : g = term1
  · rw [if_pos h1]
    split
    · exact Or.inr (Or.inl ⟨h1, rfl⟩)
    · exact Or.inl rfl
  · rw [if_neg h1]
    by_cases h2 : g = term0
    · rw [if_pos h2]
      split
      · exact Or.inr (Or.inr (Or.inl ⟨h2, rfl⟩))
      · exact Or.inl rfl
    · rw [if_neg h2]
      by_cases h3 : g = h.neg
      · rw [if_pos h3]
        split
        · exact Or.inr (Or.inr (Or.inr (Or.inl ⟨h3, rfl⟩)))
        · exact Or.inl rfl
      · rw [if_neg h3]
        by_cases h4 : h = term1
        · rw [if_pos h4]
          split
          · exact Or.inr (Or.inr (Or.inr (Or.inr (Or.inl ⟨h4, rfl⟩))))
          · exact Or.inl rfl
        · rw [if_neg h4]
          by_cases h5 : h = term0
          · rw [if_pos h5]
            split
            · exact Or.inr (Or.inr (Or.inr (Or.inr (Or.inr ⟨h5, rfl⟩))))
            · exact Or.inl rfl
          · rw [if_neg h5]
            exact Or.inl rfl

theorem neg_c (e : Edge) : (Edge.neg e).c = !e.c := rfl

theorem identRules_phi (f g h : Edge) :
    phiC f (identRules f g h).1 (identRules f g h).2 = phiC f g h := by
  rcases identRules_cases f g h with ⟨hc, he⟩ | ⟨hc, he⟩ | ⟨hc, he⟩ |
    ⟨hc, he⟩ | he <;> rw [he] <;> unfold phiC
  · have : g.c = f.c := by rw [hc]
    cases hf : f.c <;> rw [hf] at this <;> simp [term1, this]
  · have : h.c = f.c := by rw [hc]
    cases hf : f.c <;> rw [hf] at this <;> simp [term0, this]
  · have : f.c = !h.c := by rw [hc, neg_c]
    cases hh : h.c <;> rw [hh] at this <;> simp [term1, this]
  · have : f.c = !g.c := by rw [hc, neg_c]
    cases hg : g.c <;> rw [hg] at this <;> simp [term0, this]

theorem symmRules_phi (m : Mgr) (f g h : Edge) :
    phiC (symmRules m f g h).1 (symmRules m f g h).2.1
      (symmRules m f g h).2.2 = phiC f g h := by
  rcases symmRules_cases m f g h with he | ⟨hc, he⟩ | ⟨hc, he⟩ |
    ⟨hc, he⟩ | ⟨hc, he⟩ | ⟨hc, he⟩ <;> rw [he] <;> unfold phiC
  · have : g.c = false := by rw [hc]; rfl
    cases hf : f.c <;> cases hh : h.c <;> simp [this, hf, hh]
  · have : g.c = true := by rw [hc]; rfl
    cases hf : f.c <;> cases hh : h.c <;> simp [neg_c, this, hf, hh]
  · have : g.c = !h.c := by rw [hc, neg_c]
    cases hf : f.c <;> cases hh : h.c <;> rw [hh] at this <;>
      simp [neg_c, this, hf, hh]
  · have : h.c = false := by rw [hc]; rfl
    cases hf : f.c <;> cases hg : g.c <;> simp [neg_c, this, hf, hg]
  · have : h.c = true := by rw [hc]; rfl
    cases hf : f.c <;> cases hg : g.c <;> simp [neg_c, this, hf, hg]

theorem complRules_flip (f g h : Edge) (b : Bool) :
    (complRules f g h b).2.2.2 = Bool.xor b (phiC f g h) := by
  unfold complRules phiC
  cases hf : f.c <;> cases hg : g.c <;> cases hh : h.c <;>
    cases b <;> simp [neg_c, hf, hg, hh]

theorem standardize_flip (m : Mgr) (f g h : Edge) :
    (m.standardize f g h false).2.2.2 = phiC f g h := by
  unfold Mgr.standardize
  rw [complRules_flip, symmRules_phi, identRules_phi]
  simp

theorem ptrFrom_trans {f g h g1 h1 x : Edge}
    (hg1 : ptrFrom f g h g1) (hh1 : ptrFrom f g h h1)
    (hx : ptrFrom f g1 h1 x) : ptrFrom f g h x := by
  unfold ptrFrom at *
  rcases hx with hx | hx | hx | hx <;> rw [hx] <;> tauto

theorem ptrFrom_self_f (f g h : Edge) : ptrFrom f g h f := Or.inl rfl
theorem ptrFrom_self_g (f g h : Edge) : ptrFrom f g h g := Or.inr (Or.inl rfl)
theorem ptrFrom_self_h (f g h : Edge) : ptrFrom f g h h :=
  Or.inr (Or.inr (Or.inl rfl))

theorem ptrFrom_neg (f g h e : Edge) (hx : ptrFrom f g h e) :
    ptrFrom f g h e.neg := hx

theorem ptrFrom_term1 (f g h : Edge) : ptrFrom f g h term1 :=
  Or.inr (Or.inr (Or.inr rfl))
theorem ptrFrom_term0 (f g h : Edge) : ptrFrom f g h term0 :=
  Or.inr (Or.inr (Or.inr rfl))

theorem identRules_from (f g h : Edge) :
    ptrFrom f g h (identRules f g h).1 ∧
      ptrFrom f g h (identRules f g h).2 := by
  rcases identRules_cases f g h with ⟨_, he⟩ | ⟨_, he⟩ | ⟨_, he⟩ |
    ⟨_, he⟩ | he <;> rw [he]
  · exact ⟨ptrFrom_term1 f g h, ptrFrom_self_h f g h⟩
  · exact ⟨ptrFrom_self_g f g h, ptrFrom_term0 f g h⟩
  · exact ⟨ptrFrom_self_g f g h, ptrFrom_term1 f g h⟩
  · exact ⟨ptrFrom_term0 f g h, ptrFrom_self_h f g h⟩
  · exact ⟨ptrFrom_self_g f g h, ptrFrom_self_h f g h⟩

theorem symmRules_from (m : Mgr) (f g h : Edge) :
    ptrFrom f g h (symmRules m f g h).1 ∧
      ptrFrom f g h (symmRules m f g h).2.1 ∧
      ptrFrom f g h (symmRules m f g h).2.2 := by
  rcases symmRules_cases m f g h with he | ⟨_, he⟩ | ⟨_, he⟩ |
    ⟨_, he⟩ | ⟨_, he⟩ | ⟨_, he⟩ <;> rw [he]
  · exact ⟨ptrFrom_self_f f g h, ptrFrom_self_g f g h, ptrFrom_self_h f g h⟩
  · exact ⟨ptrFrom_self_h f g h, ptrFrom_self_g f g h, ptrFrom_self_f f g h⟩
  · exact ⟨ptrFrom_neg _ _ _ _ (ptrFrom_self_h f g h), ptrFrom_self_g f g h,
      ptrFrom_neg _ _ _ _ (ptrFrom_self_f f g h)⟩
  · exact ⟨ptrFrom_self_g f g h, ptrFrom_self_f f g h,
      ptrFrom_neg _ _ _ _ (ptrFrom_self_f f g h)⟩
  · exact ⟨ptrFrom_neg _ _ _ _ (ptrFrom_self_g f g h),
      ptrFrom_neg _ _ _ _ (ptrFrom_self_f f g h), ptrFrom_self_h f g h⟩
  · exact ⟨ptrFrom_self_g f g h, ptrFrom_self_f f g h, ptrFrom_self_h f g h⟩

theorem complRules_from (f g h : Edge) (b : Bool) :
    ptrFrom f g h (complRules f g h b).1 ∧
      ptrFrom f g h (complRules f g h b).2.1 ∧
      ptrFrom f g h (complRules f g h b).2.2.1 := by
  unfold complRules
  cases hf : f.c
  · simp only [hf, Bool.false_eq_true, if_false]
    split
    · exact ⟨ptrFrom_self_f f g h, ptrFrom_neg _ _ _ _ (ptrFrom_self_g f g h),
        ptrFrom_neg _ _ _ _ (ptrFrom_self_h f g h)⟩
    · exact ⟨ptrFrom_self_f f g h, ptrFrom_self_g f g h, ptrFrom_self_h f g h⟩
  · simp only [hf, if_true]
    split
    · exact ⟨ptrFrom_neg _ _ _ _ (ptrFrom_self_f f g h),
        ptrFrom_neg _ _ _ _ (ptrFrom_self_h f g h),
        ptrFrom_neg _ _ _ _ (ptrFrom_self_g f g h)⟩
    · exact ⟨ptrFrom_neg _ _ _ _ (ptrFrom_self_f f g h),
        ptrFrom_self_h f g h, ptrFrom_self_g f g h⟩

theorem standardize_from (m : Mgr) (f g h : Edge) (b : Bool) :
    ptrFrom f g h (m.standardize f g h b).1 ∧
      ptrFrom f g h (m.standardize f g h b).2.1 ∧
      ptrFrom f g h (m.standardize f g h b).2.2.1 := by
  unfold Mgr.standardize
  obtain ⟨hg1, hh1⟩ := identRules_from f g h
  obtain ⟨hs1, hs2, hs3⟩ :=
    symmRules_from m f (identRules f g h).1 (identRules f g h).2
  replace hs1 := ptrFrom_trans hg1 hh1 hs1
  replace hs2 := ptrFrom_trans hg1 hh1 hs2
  replace hs3 := ptrFrom_trans hg1 hh1 hs3
  obtain ⟨hc1, hc2, hc3⟩ := complRules_from
    (symmRules m f (identRules f g h).1 (identRules f g h).2).1
    (symmRules m f (identRules f g h).1 (identRules f g h).2).2.1
    (symmRules m f (identRules f g h).1 (identRules f g h).2).2.2 b
  have key : ∀ x : Edge,
      ptrFrom (symmRules m f (identRules f g h).1 (identRules f g h).2).1
        (symmRules m f (identRules f g h).1 (identRules f g h).2).2.1
        (symmRules m f (identRules f g h).1 (identRules f g h).2).2.2 x →
      ptrFrom f g h x := by
    intro x hx
    unfold ptrFrom at hx ⊢
    rcases hx with hx | hx | hx | hx <;> rw [hx] <;>
      first
        | exact hs1
        | exact hs2
        | exact hs3
        | tauto
  exact ⟨key _ hc1, key _ hc2, key _ hc3⟩

/-! ### Derived facts used by the preservation proofs -/

theorem nodeD_eq (m : Mgr) (i : Nat) : m.nodeD i = nodeL m.store i := rfl

theorem idxE_eq (m : Mgr) (e : Edge) : m.idxE e = idxL m.store e := rfl

theorem validL_neg (s : List DDNode) (e : Edge) :
    validL s e.neg = validL s e := rfl

theorem idxL_neg (s : List DDNode) (e : Edge) :
    idxL s e.neg = idxL s e := rfl

theorem getD_set_ne {α : Type} (l : List α) (i j : Nat) (v d : α)
    (h : i ≠ j) : (l.set i v).getD j d = l.getD j d := by
  simp [List.getD, List.getElem?_set_ne, h]

theorem ptrFrom_valid {s : List DDNode} {f g h e : Edge}
    (hs : 0 < s.length) (hf : validL s f) (hg : validL s g)
    (hh : validL s h) (he : ptrFrom f g h e) : validL s e := by
  unfold validL at *
  rcases he with hx | hx | hx | hx <;> rw [hx] <;> assumption

theorem ptrFrom_idx {s : List DDNode} {f g h e : Edge}
    (hleaf : (nodeL s 0).index = 0) (he : ptrFrom f g h e) :
    idxL s e ≤ max (idxL s f) (max (idxL s g) (idxL s h)) := by
  unfold idxL at *
  rcases he with hx | hx | hx | hx <;> rw [hx]
  · exact le_max_left _ _
  · exact le_trans (le_max_left _ _) (le_max_right _ _)
  · exact le_trans (le_max_right _ _) (le_max_right _ _)
  · rw [hleaf]; exact Nat.zero_le _

theorem isTerminal_none_ne {f g h : Edge} (hn : isTerminal f g h = none) :
    f ≠ term1 ∧ f ≠ term0 := by
  unfold isTerminal at hn
  constructor <;> intro hx <;> rw [hx] at hn <;>
    simp [term0, term1] at hn

theorem isTerminal_some {f g h r : Edge} (hr : isTerminal f g h = some r) :
    r = g ∨ (f = term0 ∧ r = h) ∨ r = f := by
  unfold isTerminal at hr
  split at hr
  · exact Or.inl (Option.some.inj hr).symm
  · split at hr
    · next h2 => exact Or.inr (Or.inl ⟨h2, (Option.some.inj hr).symm⟩)
    · split at hr
      · exact Or.inr (Or.inr (Option.some.inj hr).symm)
      · split at hr
        · exact Or.inl (Option.some.inj hr).symm
        · cases hr

theorem getCofactor_gt {k : Nat} {m : Mgr} {e : Edge} {index : Nat}
    {fac : Bool} (hgt : index > m.idxE e) :
    getCofactor (k + 1) m e index fac = some (e, m) := by
  unfold getCofactor
  rw [if_pos hgt]

theorem getCofactor_eq {k : Nat} {m : Mgr} {e : Edge} {index : Nat}
    {fac : Bool} (heq : index = m.idxE e) :
    getCofactor (k + 1) m e index fac =
      some ((if fac then
               (if e.c then (m.nodeD e.ptr).high.neg else (m.nodeD e.ptr).high)
             else
               (if e.c then (m.nodeD e.ptr).low.neg else (m.nodeD e.ptr).low)),
            m) := by
  unfold getCofactor
  rw [if_neg (by omega), if_pos heq]
  cases fac <;> simp

theorem getCofactor_top {k : Nat} {m : Mgr} {e : Edge} {index : Nat}
    (fac : Bool) (hW : WFstoreL m.store) (hv : validL m.store e)
    (hge : m.idxE e ≤ index) (hpos : 1 ≤ index) :
    ∃ e2, getCofactor (k + 1) m e index fac = some (e2, m) ∧
      validL m.store e2 ∧ m.idxE e2 < index ∧
      (e.c = false → fac = true → e2.c = false) := by
  rcases Nat.lt_or_ge (m.idxE e) index with hlt | hge2
  · exact ⟨e, getCofactor_gt hlt, hv, hlt, fun hc _ => hc⟩
  · have heq : index = m.idxE e := le_antisymm hge2 hge
    have hptr : e.ptr ≠ 0 := by
      intro h0
      have hz : m.idxE e = 0 := by
        rw [idxE_eq]
        unfold idxL
        rw [h0]
        exact hW.2.1
      omega
    have hnd := hW.2.2.1 e.ptr (Nat.pos_of_ne_zero hptr) hv
    obtain ⟨hn1, hn2, hn3, hn4, hn5, hn6⟩ := hnd
    have hidx : (nodeL m.store e.ptr).index = index := heq.symm
    refine ⟨_, getCofactor_eq heq, ?_, ?_, ?_⟩
    · cases fac <;> cases hc : e.c <;>
        simp only [if_true, if_false, Bool.false_eq_true, Bool.true_eq_false] <;>
        first
          | exact hn3
          | exact hn4
          | (rw [nodeD_eq, validL_neg]; first | exact hn3 | exact hn4)
          | (rw [nodeD_eq]; first | exact hn3 | exact hn4)
    · cases fac <;> cases hc : e.c <;>
        simp only [if_true, if_false, Bool.false_eq_true, Bool.true_eq_false,
          idxE_eq, nodeD_eq, idxL_neg] <;>
        unfold idxL <;> omega
    · intro hc hfac
      rw [hfac, if_pos rfl, hc]
      simp only [Bool.false_eq_true, if_false]
      rw [nodeD_eq]
      exact hn2

theorem topVar_eq_max (m : Mgr) (f g h : Edge) :
    topVar m f g h = max (m.idxE f) (max (m.idxE g) (m.idxE h)) := by
  unfold topVar
  dsimp only
  split <;> split <;> omega

/-! ### Table operation preservation lemmas -/

theorem utFind_some_ok {m : Mgr} {k : TableKey} {n : Nat}
    (hU : UTinvL m.store m.ut m.utsize) (hf : m.utFind k = some n) :
    n < m.store.length ∧
    ((n = 0 ∧ k = ⟨0, 0, 0⟩) ∨
     k = ⟨(nodeL m.store n).index, (nodeL m.store n).high.enc,
          (nodeL m.store n).low.enc⟩) := by
  unfold Mgr.utFind at hf
  cases hfind : (m.ut.getD (k.hash % m.utsize) []).find? (fun p => p.1 == k) with
  | none => rw [hfind] at hf; cases hf
  | some p =>
    rw [hfind] at hf
    have hn : p.2 = n := Option.some.inj hf
    have hmem := List.mem_of_find?_eq_some hfind
    have hpred := List.find?_some hfind
    have hkey : p.1 = k := by
      simpa using hpred
    have hb : k.hash % m.utsize < m.ut.length := by
      obtain ⟨hlen, hpos, _⟩ := hU
      rw [hlen]; exact Nat.mod_lt _ hpos
    obtain ⟨h1, h2⟩ := hU.2.2 _ hb p hmem
    subst hn
    rw [← hkey]
    exact ⟨h1, h2⟩

theorem findAdd_ok {m : Mgr} {v : Nat} {t e : Edge}
    (hM : Minv m) (hv1 : 1 ≤ v) (htc : t.c = false)
    (hvt : validL m.store t) (hve : validL m.store e)
    (hit : idxL m.store t < v) (hie : idxL m.store e < v) :
    Minv (m.findAdd v t.enc e.enc).2 ∧
    extendsM m (m.findAdd v t.enc e.enc).2 ∧
    (m.findAdd v t.enc e.enc).1 < (m.findAdd v t.enc e.enc).2.store.length ∧
    nodeL (m.findAdd v t.enc e.enc).2.store (m.findAdd v t.enc e.enc).1 =
      ⟨v, e, t⟩ ∧
    (m.findAdd v t.enc e.enc).2.ct = m.ct := by
  obtain ⟨hW, hC, hU⟩ := hM
  cases hfind : m.utFind ⟨v, t.enc, e.enc⟩ with
  | some n =>
    rw [findAdd_found hfind]
    obtain ⟨hn, hkey⟩ := utFind_some_ok hU hfind
    rcases hkey with ⟨_, hk0⟩ | hk
    · have hv0 : v = 0 := congrArg TableKey.f hk0
      omega
    · have hvv : v = (nodeL m.store n).index := congrArg TableKey.f hk
      have htt : t.enc = (nodeL m.store n).high.enc := congrArg TableKey.g hk
      have hee : e.enc = (nodeL m.store n).low.enc := congrArg TableKey.h hk
      have ht2 : t = (nodeL m.store n).high := by
        rw [← enc_dec t, htt, enc_dec]
      have he2 : e = (nodeL m.store n).low := by
        rw [← enc_dec e, hee, enc_dec]
      refine ⟨⟨hW, hC, hU⟩, extendsM_refl m, hn, ?_, rfl⟩
      rw [hvv, ht2, he2]
  | none =>
    rw [findAdd_new hfind]
    have hnd2 : (⟨v, dec e.enc, dec t.enc⟩ : DDNode) = ⟨v, e, t⟩ := by
      rw [enc_dec, enc_dec]
    have hWF2 : WFstoreL (m.store ++ [(⟨v, dec e.enc, dec t.enc⟩ : DDNode)]) := by
      obtain ⟨hl0, hleaf, hall, hleafnd⟩ := hW
      refine ⟨by simp only [List.length_append]; omega, ?_, ?_, ?_⟩
      · rw [nodeL_append _ _ 0 hl0]; exact hleaf
      · intro i hi0 hilen
        rw [List.length_append, List.length_singleton] at hilen
        by_cases hi : i < m.store.length
        · rw [nodeL_append _ _ i hi]
          exact WFnodeL_append _ _ _ (hall i hi0 hi)
        · have hieq : i = m.store.length := by omega
          subst hieq
          rw [nodeL_append_at _ _ _ rfl, hnd2]
          refine ⟨hv1, htc, ?_, ?_, ?_, ?_⟩
          · show t.ptr < _
            simp only [List.length_append, List.length_singleton]
            unfold validL at hvt; omega
          · show e.ptr < _
            simp only [List.length_append, List.length_singleton]
            unfold validL at hve; omega
          · show (nodeL (m.store ++ _) t.ptr).index < v
            rw [nodeL_append _ _ _ hvt]; exact hit
          · show (nodeL (m.store ++ _) e.ptr).index < v
            rw [nodeL_append _ _ _ hve]; exact hie
      · rw [nodeL_append _ _ 0 hl0]; exact hleafnd
    have hCT2 : CTinvL (m.store ++ [(⟨v, dec e.enc, dec t.enc⟩ : DDNode)])
        m.ct m.ctsize :=
      ⟨hC.1, hC.2.1, fun i hi => ctEntryOK_append _ _ _ (hC.2.2 i hi)⟩
    have hUT2 : UTinvL (m.store ++ [(⟨v, dec e.enc, dec t.enc⟩ : DDNode)])
        (m.ut.set ((⟨v, t.enc, e.enc⟩ : TableKey).hash % m.utsize)
          ((m.ut.getD ((⟨v, t.enc, e.enc⟩ : TableKey).hash % m.utsize) []) ++
            [(⟨v, t.enc, e.enc⟩, m.store.length)])) m.utsize := by
      obtain ⟨hul, hupos, hok⟩ := hU
      have hbpos : (⟨v, t.enc, e.enc⟩ : TableKey).hash % m.utsize < m.ut.length := by
        rw [hul]; exact Nat.mod_lt _ hupos
      refine ⟨by rw [List.length_set]; exact hul, hupos, ?_⟩
      intro b hb p hp
      rw [List.length_set] at hb
      by_cases hbp : (⟨v, t.enc, e.enc⟩ : TableKey).hash % m.utsize = b
      · subst hbp
        rw [getD_set_self _ _ _ _ hbpos] at hp
        rcases List.mem_append.mp hp with hold | hnew
        · exact utEntryOK_append _ _ _ (hok _ hbpos p hold)
        · have hpe : p = (⟨v, t.enc, e.enc⟩, m.store.length) := by
            simpa using hnew
          subst hpe
          refine ⟨by simp only [List.length_append]; simp, Or.inr ?_⟩
          show (⟨v, t.enc, e.enc⟩ : TableKey) = _
          rw [nodeL_append_at _ _ _ rfl, hnd2]
      · rw [getD_set_ne _ _ _ _ _ hbp] at hp
        exact utEntryOK_append _ _ _ (hok b hb p hp)
    refine ⟨⟨hWF2, hCT2, hUT2⟩, ⟨⟨_, rfl⟩, rfl, rfl⟩, ?_, ?_, rfl⟩
    · show m.store.length < (m.store ++ _).length
      simp
    · show nodeL (m.store ++ _) m.store.length = _
      rw [nodeL_append_at _ _ _ rfl, hnd2]

theorem ctLookup_ok {m : Mgr} {k : TableKey} {v : Nat}
    (hC : CTinvL m.store m.ct m.ctsize) (hk4 : 4 ≤ k.f)
    (hl : m.ctLookup k = some v) :
    4 ≤ v ∧ validL m.store (dec v) ∧ (k.f % 2 = 0 → v % 2 = 0) ∧
    idxL m.store (dec v) ≤ maxKeyIdx m.store k := by
  obtain ⟨hlen, hpos, hall⟩ := hC
  unfold Mgr.ctLookup at hl
  dsimp only at hl
  split at hl
  case isFalse => cases hl
  case isTrue hcond =>
    have hval := Option.some.inj hl
    have hb : k.hash % m.ctsize < m.ct.length := by
      rw [hlen]; exact Nat.mod_lt _ hpos
    rcases hall _ hb with hinit | hrest
    · rw [hinit] at hcond
      have : k.f = 0 := by
        have := congrArg TableKey.f hcond
        simpa using this.symm
      omega
    · rw [hcond, hval] at hrest
      exact ⟨hrest.2.2.2.2.2.2.1, hrest.2.2.2.2.2.2.2.1,
        hrest.2.2.2.2.2.2.2.2.1, hrest.2.2.2.2.2.2.2.2.2⟩

theorem ctInsert_ok {m : Mgr} {k : TableKey} {v : Nat}
    (hM : Minv m) (hok : ctEntryOK m.store (k, v)) :
    Minv (m.ctInsert k v) ∧ (m.ctInsert k v).store = m.store ∧
      extendsM m (m.ctInsert k v) := by
  obtain ⟨hW, ⟨hcl, hcpos, hcall⟩, hU⟩ := hM
  simp only [Mgr.ctInsert]
  refine ⟨⟨hW, ⟨?_, hcpos, ?_⟩, hU⟩, trivial, ⟨⟨[], by simp⟩, rfl, rfl⟩⟩
  · rw [List.length_set]; exact hcl
  · intro i hi
    rw [List.length_set] at hi
    by_cases hip : (k.hash % m.ctsize) = i
    · subst hip
      rw [getD_set_self _ _ _ _ (by rw [hcl]; exact Nat.mod_lt _ hcpos)]
      exact hok
    · rw [getD_set_ne _ _ _ _ _ hip]
      exact hcall i hi

theorem validL_if_neg {s : List DDNode} {x : Edge} (cE : Bool)
    (hv : validL s x) : validL s (if cE = true then x.neg else x) := by
  cases cE <;> simpa [validL_neg]

theorem idxL_if_neg {s : List DDNode} {x : Edge} (cE : Bool) :
    idxL s (if cE = true then x.neg else x) = idxL s x := by
  cases cE <;> simp [idxL_neg]

theorem c_if_neg {x : Edge} (cE : Bool) (hx : x.c = false) :
    (if cE = true then x.neg else x).c = cE := by
  cases cE <;> simp [neg_c, hx]

/-! ### Preservation of the invariants by the engine operations -/

theorem ite_ok : ∀ (fuel : Nat) (m : Mgr) (f0 g0 h0 r : Edge) (m2 : Mgr),
    Minv m → validL m.store f0 → validL m.store g0 → validL m.store h0 →
    iteOp fuel m f0 g0 h0 = some (r, m2) →
    Minv m2 ∧ extendsM m m2 ∧ validL m2.store r ∧
    idxL m2.store r ≤ max (idxL m.store f0)
      (max (idxL m.store g0) (idxL m.store h0)) ∧
    r.c = phiC f0 g0 h0 := by
  intro fuel
  induction fuel with
  | zero =>
    intro m f0 g0 h0 r m2 _ _ _ _ hrun
    simp [iteOp] at hrun
  | succ n IH =>
    intro m f0 g0 h0 r m2 hM hvf0 hvg0 hvh0 hrun
    obtain ⟨f, g, h, cE, hstd⟩ :
        ∃ f g h cE, m.standardize f0 g0 h0 false = (f, g, h, cE) :=
      ⟨_, _, _, _, rfl⟩
    have hreg := standardize_fg_regular m f0 g0 h0 false
    have hflip := standardize_flip m f0 g0 h0
    have hfrom := standardize_from m f0 g0 h0 false
    rw [hstd] at hreg hflip hfrom
    dsimp only at hreg hflip hfrom
    obtain ⟨hfc, hgc⟩ := hreg
    obtain ⟨hFf, hFg, hFh⟩ := hfrom
    have hW := hM.1
    have hvf : validL m.store f := ptrFrom_valid hW.1 hvf0 hvg0 hvh0 hFf
    have hvg : validL m.store g := ptrFrom_valid hW.1 hvf0 hvg0 hvh0 hFg
    have hvh : validL m.store h := ptrFrom_valid hW.1 hvf0 hvg0 hvh0 hFh
    have hif := ptrFrom_idx hW.2.1 hFf
    have hig := ptrFrom_idx hW.2.1 hFg
    have hih := ptrFrom_idx hW.2.1 hFh
    simp only [iteOp] at hrun
    rw [hstd] at hrun
    dsimp only at hrun
    cases hterm : isTerminal f g h with
    | some rt =>
      rw [hterm] at hrun
      have hpair := Option.some.inj hrun
      injection hpair with h1 h2
      subst h2
      subst h1
      have hrt : validL m.store rt ∧
          idxL m.store rt ≤ max (idxL m.store f0)
            (max (idxL m.store g0) (idxL m.store h0)) ∧ rt.c = false := by
        rcases isTerminal_some hterm with h1 | ⟨h1, h2⟩ | h1
        · subst h1; exact ⟨hvg, hig, hgc⟩
        · rw [h1] at hfc; simp [term0] at hfc
        · subst h1; exact ⟨hvf, hif, hfc⟩
      obtain ⟨hrtv, hrti, hrtc⟩ := hrt
      refine ⟨hM, extendsM_refl m, validL_if_neg cE hrtv, ?_, ?_⟩
      · rw [idxL_if_neg]; exact hrti
      · rw [c_if_neg cE hrtc]; exact hflip
    | none =>
      rw [hterm] at hrun
      cases hct : m.ctLookup ⟨f.enc, g.enc, h.enc⟩ with
      | some v =>
        rw [hct] at hrun
        have hpair := Option.some.inj hrun
        injection hpair with h1 h2
        subst h2
        subst h1
        obtain ⟨hv4, hvv, heven, hidx⟩ := ctLookup_ok hM.2.1 (enc_ge4 f) hct
        have hdc : (dec v).c = false := by
          apply dec_c_of_even
          apply heven
          show f.enc % 2 = 0
          rw [enc_mod2, hfc]
          rfl
        have hidx2 : idxL m.store (dec v) ≤ max (idxL m.store f0)
            (max (idxL m.store g0) (idxL m.store h0)) := by
          refine le_trans hidx ?_
          simp only [maxKeyIdx, enc_dec]
          exact max_le hif (max_le hig hih)
        refine ⟨hM, extendsM_refl m, validL_if_neg cE hvv, ?_, ?_⟩
        · rw [idxL_if_neg]; exact hidx2
        · rw [c_if_neg cE hdc]; exact hflip
      | none =>
        rw [hct] at hrun
        dsimp only at hrun
        have hfne := isTerminal_none_ne hterm
        have hfptr : f.ptr ≠ 0 := by
          intro h0
          apply hfne.1
          show f = (⟨0, false⟩ : Edge)
          rw [← h0, ← hfc]
        have hidxf1 : 1 ≤ idxL m.store f :=
          (hW.2.2.1 f.ptr (Nat.pos_of_ne_zero hfptr) hvf).1
        have htop : topVar m f g h = max (idxL m.store f)
            (max (idxL m.store g) (idxL m.store h)) := topVar_eq_max m f g h
        have htop1 : 1 ≤ topVar m f g h := by rw [htop]; omega
        obtain ⟨fl, hfleq, hflv, hfllt, hflc⟩ :=
          getCofactor_top (k := n) (m := m) (e := f) true hW hvf
            (by rw [idxE_eq, htop]; omega) htop1
        obtain ⟨gl, hgleq, hglv, hgllt, hglc⟩ :=
          getCofactor_top (k := n) (m := m) (e := g) true hW hvg
            (by rw [idxE_eq, htop]; omega) htop1
        obtain ⟨hl, hhleq, hhlv, hhllt, hhlc⟩ :=
          getCofactor_top (k := n) (m := m) (e := h) true hW hvh
            (by rw [idxE_eq, htop]; omega) htop1
        obtain ⟨f0c, hf0eq, hf0v, hf0lt, hf0cc⟩ :=
          getCofactor_top (k := n) (m := m) (e := f) false hW hvf
            (by rw [idxE_eq, htop]; omega) htop1
        obtain ⟨g0c, hg0eq, hg0v, hg0lt, hg0cc⟩ :=
          getCofactor_top (k := n) (m := m) (e := g) false hW hvg
            (by rw [idxE_eq, htop]; omega) htop1
        obtain ⟨h0c, hh0eq, hh0v, hh0lt, hh0cc⟩ :=
          getCofactor_top (k := n) (m := m) (e := h) false hW hvh
            (by rw [idxE_eq, htop]; omega) htop1
        rw [idxE_eq] at hfllt hgllt hhllt hf0lt hg0lt hh0lt
        rw [hfleq] at hrun
        simp only [Option.bind_eq_bind, Option.some_bind] at hrun
        rw [hgleq] at hrun
        simp only [Option.some_bind] at hrun
        rw [hhleq] at hrun
        simp only [Option.some_bind] at hrun
        rw [hf0eq] at hrun
        simp only [Option.some_bind] at hrun
        rw [hg0eq] at hrun
        simp only [Option.some_bind] at hrun
        rw [hh0eq] at hrun
        simp only [Option.some_bind] at hrun
        cases hT : iteOp n m fl gl hl with
        | none => rw [hT] at hrun; simp at hrun
        | some pT =>
          rw [hT] at hrun
          obtain ⟨t, mT⟩ := pT
          simp only [Option.some_bind] at hrun
          obtain ⟨hMT, hxT, hvT, hiT, hcT⟩ :=
            IH m fl gl hl t mT hM hflv hglv hhlv hT
          have htc : t.c = false := by
            rw [hcT]
            simp [phiC, hflc hfc rfl, hglc hgc rfl]
          cases hE : iteOp n mT f0c g0c h0c with
          | none => rw [hE] at hrun; simp at hrun
          | some pE =>
            rw [hE] at hrun
            obtain ⟨e, mE⟩ := pE
            simp only [Option.some_bind] at hrun
            obtain ⟨hME, hxE, hvE, hiE, hcE2⟩ :=
              IH mT f0c g0c h0c e mE hMT (validL_ext hxT hf0v)
                (validL_ext hxT hg0v) (validL_ext hxT hh0v) hE
            have hxTE := extendsM_trans hxT hxE
            have hiT2 : idxL mT.store t < topVar m f g h := by
              have h1 := hiT
              omega
            have hiE3 : idxL mE.store e < topVar m f g h := by
              have hb := hiE
              rw [idxL_ext hxT hf0v, idxL_ext hxT hg0v,
                idxL_ext hxT hh0v] at hb
              omega
            have hiT3 : idxL mE.store t = idxL mT.store t := idxL_ext hxE hvT
            have htopM : topVar m f g h ≤ max (idxL m.store f0)
                (max (idxL m.store g0) (idxL m.store h0)) := by
              rw [htop]
              exact max_le hif (max_le hig hih)
            by_cases hte : t = e
            · rw [if_pos hte] at hrun
              have hpair := Option.some.inj hrun
              injection hpair with h1 h2
              subst h2
              subst h1
              refine ⟨hME, hxTE, validL_if_neg cE (validL_ext hxE hvT), ?_, ?_⟩
              · rw [idxL_if_neg, hiT3]
                omega
              · rw [c_if_neg cE htc]; exact hflip
            · rw [if_neg hte] at hrun
              obtain ⟨nF, mF, hFeq⟩ :
                  ∃ nn mm, mE.findAdd (topVar m f g h) t.enc e.enc = (nn, mm) :=
                ⟨_, _, rfl⟩
              have hFA := findAdd_ok (m := mE) (v := topVar m f g h)
                (t := t) (e := e) hME htop1 htc (validL_ext hxE hvT) hvE
                (by rw [hiT3]; exact hiT2) hiE3
              rw [hFeq] at hFA hrun
              dsimp only at hFA hrun
              obtain ⟨hMF, hxF, hnlt, hnode, hctF⟩ := hFA
              have hxMF := extendsM_trans hxTE hxF
              have hresv : validL mF.store (⟨nF, false⟩ : Edge) := hnlt
              have hresi : idxL mF.store (⟨nF, false⟩ : Edge) =
                  topVar m f g h := by
                unfold idxL
                dsimp only
                rw [hnode]
              have hentry : ctEntryOK mF.store
                  ((⟨f.enc, g.enc, h.enc⟩ : TableKey),
                   (⟨nF, false⟩ : Edge).enc) := by
                refine Or.inr ⟨enc_ge4 f, enc_ge4 g, enc_ge4 h, ?_, ?_, ?_,
                  enc_ge4 _, ?_, ?_, ?_⟩
                · dsimp only; rw [enc_dec]; exact validL_ext hxMF hvf
                · dsimp only; rw [enc_dec]; exact validL_ext hxMF hvg
                · dsimp only; rw [enc_dec]; exact validL_ext hxMF hvh
                · dsimp only; rw [enc_dec]; exact hresv
                · intro hx
                  rw [enc_mod2]
                  rfl
                · dsimp only
                  simp only [maxKeyIdx, enc_dec]
                  rw [hresi, idxL_ext hxMF hvf, idxL_ext hxMF hvg,
                    idxL_ext hxMF hvh, htop]
              obtain ⟨hMI, hstI, hxI⟩ := ctInsert_ok hMF hentry
              have hpair := Option.some.inj hrun
              injection hpair with h1 h2
              subst h2
              subst h1
              refine ⟨hMI, extendsM_trans hxMF hxI, ?_, ?_, ?_⟩
              · refine validL_if_neg cE ?_
                show nF < _
                rw [hstI]
                exact hnlt
              · rw [idxL_if_neg]
                have hx2 : idxL (mF.ctInsert ⟨f.enc, g.enc, h.enc⟩
                    (⟨nF, false⟩ : Edge).enc).store (⟨nF, false⟩ : Edge) =
                    topVar m f g h := by
                  unfold idxL nodeL
                  rw [hstI]
                  exact congrArg DDNode.index hnode
                rw [hx2]
                exact htopM
              · rw [c_if_neg cE rfl]; exact hflip

theorem enc_even_c {e : Edge} (h : e.enc % 2 = 0) : e.c = false := by
  rw [enc_mod2] at h
  cases hc : e.c
  · rfl
  · rw [hc] at h; simp at h

theorem exist_ok : ∀ (fuel : Nat) (m : Mgr) (e0 : Edge) (v : Nat)
    (r : Edge) (m2 : Mgr),
    Minv m → validL m.store e0 →
    existRecur fuel m e0 v = some (r, m2) →
    Minv m2 ∧ extendsM m m2 ∧ validL m2.store r ∧
    idxL m2.store r ≤ idxL m.store e0 ∧
    (e0.c = false → r.c = false) := by
  intro fuel
  induction fuel with
  | zero =>
    intro m e0 v r m2 _ _ hrun
    simp [existRecur] at hrun
  | succ n IH =>
    intro m e0 v r m2 hM hve hrun
    have hW := hM.1
    simp only [existRecur] at hrun
    by_cases hleaf : e0.ptr = 0
    · rw [if_pos hleaf] at hrun
      have hpair := Option.some.inj hrun
      injection hpair with h1 h2
      subst h2
      subst h1
      exact ⟨hM, extendsM_refl m, hve, le_refl _, fun hc => hc⟩
    · rw [if_neg hleaf] at hrun
      by_cases hlt : m.idxE e0 < v
      · rw [if_pos hlt] at hrun
        have hpair := Option.some.inj hrun
        injection hpair with h1 h2
        subst h2
        subst h1
        exact ⟨hM, extendsM_refl m, hve, le_refl _, fun hc => hc⟩
      · rw [if_neg hlt] at hrun
        have hnd := hW.2.2.1 e0.ptr (Nat.pos_of_ne_zero hleaf) hve
        have hu1 : 1 ≤ m.idxE e0 := hnd.1
        obtain ⟨hi, hhieq, hhiv, hhilt, hhic⟩ :=
          getCofactor_top (k := n) (m := m) (e := e0) true hW hve
            (le_refl _) hu1
        obtain ⟨lo, hloeq, hlov, hlolt, hloc⟩ :=
          getCofactor_top (k := n) (m := m) (e := e0) false hW hve
            (le_refl _) hu1
        simp only [idxE_eq] at hhilt hlolt hu1 hlt
        rw [hhieq] at hrun
        simp only [Option.bind_eq_bind, Option.some_bind] at hrun
        rw [hloeq] at hrun
        simp only [Option.some_bind] at hrun
        cases hct : m.ctLookup ⟨e0.enc, hi.enc, lo.enc⟩ with
        | some v2 =>
          rw [hct] at hrun
          have hpair := Option.some.inj hrun
          injection hpair with h1 h2
          subst h2
          subst h1
          obtain ⟨hv4, hvv, heven, hidx⟩ :=
            ctLookup_ok hM.2.1 (enc_ge4 e0) hct
          refine ⟨hM, extendsM_refl m, hvv, ?_, ?_⟩
          · refine le_trans hidx ?_
            simp only [maxKeyIdx, enc_dec]
            omega
          · intro hc
            apply dec_c_of_even
            apply heven
            show e0.enc % 2 = 0
            rw [enc_mod2, hc]
            rfl
        | none =>
          rw [hct] at hrun
          by_cases hveq : v = m.idxE e0
          · rw [if_pos hveq] at hrun
            simp only [orOp] at hrun
            cases hOR : iteOp n m lo term1 hi with
            | none => rw [hOR] at hrun; simp at hrun
            | some pR =>
              rw [hOR] at hrun
              obtain ⟨res, mR⟩ := pR
              simp only [Option.some_bind] at hrun
              obtain ⟨hMR, hxR, hvres, hires, hcres⟩ :=
                ite_ok n m lo term1 hi res mR hM hlov hW.1 hhiv hOR
              have ht1idx : idxL m.store term1 = 0 := hW.2.1
              have hiresB : idxL mR.store res ≤ idxL m.store e0 := by
                rw [ht1idx] at hires
                omega
              have hrescB : e0.c = false → res.c = false := by
                intro hc
                rw [hcres]
                unfold phiC
                rw [hhic hc rfl]
                cases hlc : lo.c <;> simp [term1]
              have hentry : ctEntryOK mR.store
                  ((⟨e0.enc, hi.enc, lo.enc⟩ : TableKey), res.enc) := by
                refine Or.inr ⟨enc_ge4 e0, enc_ge4 hi, enc_ge4 lo, ?_, ?_, ?_,
                  enc_ge4 res, ?_, ?_, ?_⟩
                · dsimp only; rw [enc_dec]; exact validL_ext hxR hve
                · dsimp only; rw [enc_dec]; exact validL_ext hxR hhiv
                · dsimp only; rw [enc_dec]; exact validL_ext hxR hlov
                · dsimp only; rw [enc_dec]; exact hvres
                · intro hx
                  have hc0 : e0.c = false := enc_even_c hx
                  rw [enc_mod2, hrescB hc0]
                  rfl
                · dsimp only
                  simp only [maxKeyIdx, enc_dec]
                  rw [idxL_ext hxR hve, idxL_ext hxR hhiv, idxL_ext hxR hlov]
                  omega
              obtain ⟨hMI, hstI, hxI⟩ := ctInsert_ok hMR hentry
              have hpair := Option.some.inj hrun
              injection hpair with h1 h2
              subst h2
              subst h1
              refine ⟨hMI, extendsM_trans hxR hxI, ?_, ?_, hrescB⟩
              · show res.ptr < _
                rw [hstI]
                exact hvres
              · show idxL _ res ≤ _
                rw [hstI]
                exact hiresB
          · rw [if_neg hveq] at hrun
            cases hT : existRecur n m hi v with
            | none => rw [hT] at hrun; simp at hrun
            | some pT =>
              rw [hT] at hrun
              obtain ⟨t, mT⟩ := pT
              simp only [Option.some_bind] at hrun
              obtain ⟨hMT, hxT, hvT, hiT, hcT⟩ := IH m hi v t mT hM hhiv hT
              cases hE : existRecur n mT lo v with
              | none => rw [hE] at hrun; simp at hrun
              | some pE =>
                rw [hE] at hrun
                obtain ⟨e2, mE⟩ := pE
                simp only [Option.some_bind] at hrun
                obtain ⟨hME, hxE, hvE, hiE, hcE⟩ :=
                  IH mT lo v e2 mE hMT (validL_ext hxT hlov) hE
                have hxTE := extendsM_trans hxT hxE
                have hiE2 : idxL mE.store e2 ≤ idxL m.store lo := by
                  rw [idxL_ext hxT hlov] at hiE
                  exact hiE
                have hiT2 : idxL mE.store t = idxL mT.store t :=
                  idxL_ext hxE hvT
                by_cases hte : t = e2
                · rw [if_pos hte] at hrun
                  have hentry : ctEntryOK mE.store
                      ((⟨e0.enc, hi.enc, lo.enc⟩ : TableKey), t.enc) := by
                    refine Or.inr ⟨enc_ge4 e0, enc_ge4 hi, enc_ge4 lo,
                      ?_, ?_, ?_, enc_ge4 t, ?_, ?_, ?_⟩
                    · dsimp only; rw [enc_dec]; exact validL_ext hxTE hve
                    · dsimp only; rw [enc_dec]; exact validL_ext hxTE hhiv
                    · dsimp only; rw [enc_dec]; exact validL_ext hxTE hlov
                    · dsimp only; rw [enc_dec]; exact validL_ext hxE hvT
                    · intro hx
                      have hc0 : e0.c = false := enc_even_c hx
                      rw [enc_mod2, hcT (hhic hc0 rfl)]
                      rfl
                    · dsimp only
                      simp only [maxKeyIdx, enc_dec]
                      rw [idxL_ext hxTE hve, idxL_ext hxTE hhiv,
                        idxL_ext hxTE hlov]
                      rw [idxL_ext hxE hvT]
                      omega
                  obtain ⟨hMI, hstI, hxI⟩ := ctInsert_ok hME hentry
                  have hpair := Option.some.inj hrun
                  injection hpair with h1 h2
                  subst h2
                  subst h1
                  refine ⟨hMI, extendsM_trans hxTE hxI, ?_, ?_, ?_⟩
                  · show t.ptr < _
                    rw [hstI]
                    exact validL_ext hxE hvT
                  · show idxL _ t ≤ _
                    rw [hstI]
                    omega
                  · intro hc0
                    exact hcT (hhic hc0 rfl)
                · rw [if_neg hte] at hrun
                  obtain ⟨nF, mF, hFeq⟩ : ∃ nn mm,
                      mE.findAdd (m.idxE e0)
                        (if t.c = true then t.neg else t).enc
                        (if t.c = true then e2.neg else e2).enc = (nn, mm) :=
                    ⟨_, _, rfl⟩
                  have ht2c : (if t.c = true then t.neg else t).c = false := by
                    cases htcc : t.c <;> simp [neg_c, htcc]
                  have ht2v : validL mE.store (if t.c = true then t.neg else t) := by
                    cases htcc : t.c <;> simp [htcc, validL_neg] <;>
                      exact validL_ext hxE hvT
                  have ht2i : idxL mE.store (if t.c = true then t.neg else t) =
                      idxL mE.store t := by
                    cases htcc : t.c <;> simp [htcc, idxL_neg]
                  have he3v : validL mE.store (if t.c = true then e2.neg else e2) := by
                    cases htcc : t.c <;> simp [htcc, validL_neg] <;> exact hvE
                  have he3i : idxL mE.store (if t.c = true then e2.neg else e2) =
                      idxL mE.store e2 := by
                    cases htcc : t.c <;> simp [htcc, idxL_neg]
                  have hFA := findAdd_ok (m := mE) (v := m.idxE e0)
                    (t := if t.c = true then t.neg else t)
                    (e := if t.c = true then e2.neg else e2)
                    hME (by rw [idxE_eq]; exact hu1) ht2c ht2v he3v
                    (by rw [ht2i, hiT2, idxE_eq]; omega)
                    (by rw [he3i, idxE_eq]; omega)
                  rw [hFeq] at hFA hrun
                  dsimp only at hFA hrun
                  obtain ⟨hMF, hxF, hnlt, hnode, hctF⟩ := hFA
                  have hxMF := extendsM_trans hxTE hxF
                  have hresi : idxL mF.store (⟨nF, false⟩ : Edge) =
                      m.idxE e0 := by
                    unfold idxL
                    dsimp only
                    rw [hnode]
                  have hrc : (if t.c = true then (⟨nF, false⟩ : Edge).neg
                      else (⟨nF, false⟩ : Edge)).c = t.c := c_if_neg t.c rfl
                  have hrv : validL mF.store (if t.c = true then
                      (⟨nF, false⟩ : Edge).neg else (⟨nF, false⟩ : Edge)) :=
                    validL_if_neg t.c hnlt
                  have hri : idxL mF.store (if t.c = true then
                      (⟨nF, false⟩ : Edge).neg else (⟨nF, false⟩ : Edge)) =
                      m.idxE e0 := by
                    rw [idxL_if_neg]
                    exact hresi
                  have hentry : ctEntryOK mF.store
                      ((⟨e0.enc, hi.enc, lo.enc⟩ : TableKey),
                       (if t.c = true then (⟨nF, false⟩ : Edge).neg
                        else (⟨nF, false⟩ : Edge)).enc) := by
                    refine Or.inr ⟨enc_ge4 e0, enc_ge4 hi, enc_ge4 lo,
                      ?_, ?_, ?_, enc_ge4 _, ?_, ?_, ?_⟩
                    · dsimp only; rw [enc_dec]; exact validL_ext hxMF hve
                    · dsimp only; rw [enc_dec]; exact validL_ext hxMF hhiv
                    · dsimp only; rw [enc_dec]; exact validL_ext hxMF hlov
                    · dsimp only; rw [enc_dec]; exact hrv
                    · intro hx
                      have hc0 : e0.c = false := enc_even_c hx
                      rw [enc_mod2, hrc, hcT (hhic hc0 rfl)]
                      rfl
                    · dsimp only
                      simp only [maxKeyIdx, enc_dec]
                      rw [hri, idxL_ext hxMF hve, idxL_ext hxMF hhiv,
                        idxL_ext hxMF hlov]
                      rw [idxE_eq]
                      omega
                  obtain ⟨hMI, hstI, hxI⟩ := ctInsert_ok hMF hentry
                  have hpair := Option.some.inj hrun
                  injection hpair with h1 h2
                  subst h2
                  subst h1
                  refine ⟨hMI, extendsM_trans hxMF hxI, ?_, ?_, ?_⟩
                  · show validL _ _
                    unfold validL
                    rw [hstI]
                    exact hrv
                  · show idxL _ _ ≤ _
                    rw [hstI]
                    rw [hri, idxE_eq]
                  · intro hc0
                    rw [hrc]
                    exact hcT (hhic hc0 rfl)


theorem getD_replicate {α : Type} (n i : Nat) (x : α) :
    (List.replicate n x).getD i x = x := by
  induction n generalizing i with
  | zero => cases i <;> rfl
  | succ k IH =>
    cases i with
    | zero => rfl
    | succ j => exact IH j

theorem cof_ok : ∀ (fuel : Nat) (m : Mgr) (e0 : Edge) (index : Nat)
    (fac : Bool) (r : Edge) (m2 : Mgr),
    Minv m → validL m.store e0 →
    getCofactor fuel m e0 index fac = some (r, m2) →
    Minv m2 ∧ extendsM m m2 ∧ validL m2.store r ∧
    idxL m2.store r ≤ idxL m.store e0 := by
  intro fuel
  induction fuel with
  | zero =>
    intro m e0 index fac r m2 _ _ hrun
    simp [getCofactor] at hrun
  | succ n IH =>
    intro m e0 index fac r m2 hM hve hrun
    have hW := hM.1
    by_cases hgt : index > m.idxE e0
    · rw [getCofactor_gt hgt] at hrun
      have hpair := Option.some.inj hrun
      injection hpair with h1 h2
      subst h2
      subst h1
      exact ⟨hM, extendsM_refl m, hve, le_refl _⟩
    · by_cases heq : index = m.idxE e0
      · rw [getCofactor_eq heq] at hrun
        have hpair := Option.some.inj hrun
        injection hpair with h1 h2
        subst h2
        subst h1
        have hkids : validL m.store (m.nodeD e0.ptr).high ∧
            validL m.store (m.nodeD e0.ptr).low ∧
            idxL m.store (m.nodeD e0.ptr).high ≤ idxL m.store e0 ∧
            idxL m.store (m.nodeD e0.ptr).low ≤ idxL m.store e0 := by
          by_cases hp0 : e0.ptr = 0
          · have hleafnd : m.nodeD e0.ptr = ⟨0, dec 0, dec 0⟩ := by
              rw [nodeD_eq, hp0]; exact hW.2.2.2
            rw [hleafnd]
            have hd0 : dec 0 = (⟨0, false⟩ : Edge) := rfl
            dsimp only
            rw [hd0]
            have hv0 : validL m.store (⟨0, false⟩ : Edge) := hW.1
            have hi0 : idxL m.store (⟨0, false⟩ : Edge) = 0 := hW.2.1
            exact ⟨hv0, hv0, by rw [hi0]; omega, by rw [hi0]; omega⟩
          · have hnd := hW.2.2.1 e0.ptr (Nat.pos_of_ne_zero hp0) hve
            obtain ⟨hn1, hn2, hn3, hn4, hn5, hn6⟩ := hnd
            rw [nodeD_eq]
            exact ⟨hn3, hn4, le_of_lt hn5, le_of_lt hn6⟩
        obtain ⟨hvh, hvl, hih, hil⟩ := hkids
        refine ⟨hM, extendsM_refl m, ?_, ?_⟩
        · cases fac <;> cases hce : e0.c <;>
            simp only [hce, Bool.false_eq_true, Bool.true_eq_false, if_true,
              if_false, ite_true, ite_false, validL_neg] <;>
            first | exact hvh | exact hvl
        · cases fac <;> cases hce : e0.c <;>
            simp only [hce, Bool.false_eq_true, Bool.true_eq_false, if_true,
              if_false, ite_true, ite_false, idxL_neg] <;>
            first | exact hih | exact hil
      · have hlt : index < m.idxE e0 := by omega
        have hu1 : 1 ≤ m.idxE e0 := by omega
        have hp0 : e0.ptr ≠ 0 := by
          intro h0
          have hz : m.idxE e0 = 0 := by
            rw [idxE_eq]
            unfold idxL
            rw [h0]
            exact hW.2.1
          omega
        have hnd := hW.2.2.1 e0.ptr (Nat.pos_of_ne_zero hp0) hve
        obtain ⟨hn1, hn2, hn3, hn4, hn5, hn6⟩ := hnd
        have hn5i : idxL m.store (nodeL m.store e0.ptr).high < idxL m.store e0 := hn5
        have hn6i : idxL m.store (nodeL m.store e0.ptr).low < idxL m.store e0 := hn6
        simp only [getCofactor] at hrun
        rw [if_neg hgt, if_neg heq] at hrun
        rw [nodeD_eq] at hrun
        cases hT : getCofactor n m (nodeL m.store e0.ptr).high index fac with
        | none => rw [hT] at hrun; simp at hrun
        | some pT =>
          rw [hT] at hrun
          obtain ⟨t, mT⟩ := pT
          simp only [Option.bind_eq_bind, Option.some_bind] at hrun
          obtain ⟨hMT, hxT, hvT, hiT⟩ :=
            IH m (nodeL m.store e0.ptr).high index fac t mT hM hn3 hT
          cases hE : getCofactor n mT (nodeL m.store e0.ptr).low index fac with
          | none => rw [hE] at hrun; simp at hrun
          | some pE =>
            rw [hE] at hrun
            obtain ⟨e2, mE⟩ := pE
            simp only [Option.some_bind] at hrun
            obtain ⟨hME, hxE, hvE, hiE⟩ :=
              IH mT (nodeL m.store e0.ptr).low index fac e2 mE hMT
                (validL_ext hxT hn4) hE
            have hxTE := extendsM_trans hxT hxE
            have hiT2 : idxL mE.store t = idxL mT.store t := idxL_ext hxE hvT
            have hiE2 : idxL mE.store e2 ≤
                idxL m.store (nodeL m.store e0.ptr).low := by
              rw [idxL_ext hxT hn4] at hiE
              exact hiE
            by_cases hte : t = e2
            · rw [if_pos hte] at hrun
              have hpair := Option.some.inj hrun
              injection hpair with h1 h2
              subst h2
              subst h1
              refine ⟨hME, hxTE, validL_if_neg e0.c (validL_ext hxE hvT), ?_⟩
              rw [idxL_if_neg]
              omega
            · rw [if_neg hte] at hrun
              obtain ⟨nF, mF, hFeq⟩ : ∃ nn mm,
                  mE.findAdd (mE.idxE e0)
                    (if t.c = true then t.neg else t).enc e2.neg.enc =
                    (nn, mm) := ⟨_, _, rfl⟩
              have hu2 : mE.idxE e0 = m.idxE e0 := by
                rw [idxE_eq, idxE_eq, idxL_ext hxTE hve]
              have ht2c : (if t.c = true then t.neg else t).c = false := by
                cases htcc : t.c <;> simp [neg_c, htcc]
              have ht2v : validL mE.store (if t.c = true then t.neg else t) := by
                cases htcc : t.c <;> simp [htcc, validL_neg] <;>
                  exact validL_ext hxE hvT
              have ht2i : idxL mE.store (if t.c = true then t.neg else t) =
                  idxL mE.store t := by
                cases htcc : t.c <;> simp [htcc, idxL_neg]
              have hFA := findAdd_ok (m := mE) (v := mE.idxE e0)
                (t := if t.c = true then t.neg else t) (e := e2.neg)
                hME (by rw [hu2]; omega) ht2c ht2v
                (by rw [validL_neg]; exact hvE)
                (by rw [ht2i, hiT2, hu2, idxE_eq]; omega)
                (by rw [idxL_neg, hu2, idxE_eq]; omega)
              rw [hFeq] at hFA hrun
              dsimp only at hFA hrun
              obtain ⟨hMF, hxF, hnlt, hnode, hctF⟩ := hFA
              have hpair := Option.some.inj hrun
              injection hpair with h1 h2
              subst h2
              subst h1
              refine ⟨hMF, extendsM_trans hxTE hxF, hnlt, ?_⟩
              show (nodeL mF.store nF).index ≤ _
              rw [hnode]
              dsimp only
              rw [hu2, idxE_eq]

theorem addVariables_Minv : ∀ (k i : Nat) (m : Mgr), Minv m → 1 ≤ i →
    Minv (addVariables k i m) := by
  intro k
  induction k with
  | zero => intro i m hM _; exact hM
  | succ n IH =>
    intro i m hM hi
    simp only [addVariables]
    apply IH (i + 1) _ ?_ (by omega)
    have hW := hM.1
    have hvt : validL m.store term1 := hW.1
    have hve : validL m.store term0 := hW.1
    have hi1 : idxL m.store term1 = 0 := hW.2.1
    have hi0 : idxL m.store term0 = 0 := hW.2.1
    have hFA := findAdd_ok (m := m) (v := i) (t := term1) (e := term0)
      hM hi rfl hvt hve (by omega) (by omega)
    exact hFA.1

theorem mgrInit_Minv (numVars usz csz : Nat) (hu : 0 < usz) (hc : 0 < csz) :
    Minv (mgrInit numVars usz csz) := by
  simp only [mgrInit]
  apply addVariables_Minv _ _ _ ?_ (le_refl 1)
  have hfind : (⟨[], List.replicate usz [], usz,
      List.replicate csz (⟨0, 0, 0⟩, 0), csz, []⟩ : Mgr).utFind
        ⟨0, 0, 0⟩ = none := by
    simp [Mgr.utFind, TableKey.hash, getD_replicate]
  rw [findAdd_new hfind]
  simp only [Mgr.utAdd, List.nil_append, List.length_nil, getD_replicate]
  refine ⟨⟨?_, ?_, ?_, ?_⟩, ⟨?_, hc, ?_⟩, ⟨?_, hu, ?_⟩⟩
  · show 0 < [(⟨0, dec 0, dec 0⟩ : DDNode)].length
    simp
  · rfl
  · intro i h0 hlen
    simp only [List.length_singleton] at hlen
    omega
  · rfl
  · show (List.replicate csz _).length = csz
    simp
  · intro i hi
    show ctEntryOK _ ((List.replicate csz (⟨0, 0, 0⟩, 0)).getD i (⟨0, 0, 0⟩, 0))
    rw [getD_replicate]
    exact Or.inl rfl
  · show ((List.replicate usz _).set _ _).length = usz
    simp
  · intro b hb p hp
    simp only [List.length_set, List.length_replicate] at hb
    by_cases hb0 : (TableKey.hash ⟨0, 0, 0⟩) % usz = b
    · rw [← hb0] at hp
      rw [getD_set_self _ _ _ _
        (by rw [List.length_replicate]; exact Nat.mod_lt _ hu)] at hp
      simp only [List.mem_singleton] at hp
      subst hp
      refine ⟨by simp, Or.inl ⟨rfl, rfl⟩⟩
    · rw [getD_set_ne _ _ _ _ _ hb0] at hp
      rw [getD_replicate] at hp
      simp at hp

theorem reachable_Minv : ∀ m : Mgr, Reachable m → Minv m := by
  intro m h
  induction h with
  | init n u c hu hc => exact mgrInit_Minv n u c hu hc
  | step_ite m fuel f g h r m2 _ hvf hvg hvh hrun IH =>
    exact (ite_ok fuel m f g h r m2 IH hvf hvg hvh hrun).1
  | step_exist m fuel e v r m2 _ hve hrun IH =>
    exact (exist_ok fuel m e v r m2 IH hve hrun).1
  | step_cof m fuel e v fac r m2 _ hve hrun IH =>
    exact (cof_ok fuel m e v fac r m2 IH hve hrun).1

/-- C2: in every engine state reachable through the public operations, every
stored node other than the leaf carries a regular (uncomplemented) high child
edge — no operation ever stores a complemented high edge.  In `ite` the
recursive then-result is always regular (the standardizer leaves `f` and `g`
regular and the flip bookkeeping keeps it so), hence the guarded
renormalization the specification describes never has anything to undo. -/
theorem stored_high_edge_regular (m : Mgr) (hR : Reachable m) :
    ∀ i, 0 < i → i < m.store.length → (nodeL m.store i).high.c = false := by
  intro i h0 hlen
  exact ((reachable_Minv m hR).1.2.2.1 i h0 hlen).2.1

theorem stored_high_edge_regular_witness :
    (nodeL (mgrInit 2 7 7).store 1).high.c = false :=
  stored_high_edge_regular (mgrInit 2 7 7)
    (Reachable.init 2 7 7 (by decide) (by decide)) 1 (by decide) (by decide)

/-- C5 (amended): the top variable of every recursive `ite` step is the
maximum of the three root indices (the if-chain of `Manager::ite`), and in
every reachable engine state every interior node's index is strictly greater
than the indices of both of its children, the leaf carrying index 0 at the
bottom. -/
theorem ordering_invariant_max (m : Mgr) (hR : Reachable m) :
    (∀ f g h : Edge, topVar m f g h =
        max (m.idxE f) (max (m.idxE g) (m.idxE h))) ∧
    (nodeL m.store 0).index = 0 ∧
    ∀ i, 0 < i → i < m.store.length →
      (nodeL m.store (nodeL m.store i).high.ptr).index <
        (nodeL m.store i).index ∧
      (nodeL m.store (nodeL m.store i).low.ptr).index <
        (nodeL m.store i).index := by
  have hM := reachable_Minv m hR
  refine ⟨fun f g h => topVar_eq_max m f g h, hM.1.2.1, ?_⟩
  intro i h0 hlen
  have hnd := hM.1.2.2.1 i h0 hlen
  exact ⟨hnd.2.2.2.2.1, hnd.2.2.2.2.2⟩

theorem ordering_invariant_max_witness :
    (nodeL (mgrInit 2 7 7).store (nodeL (mgrInit 2 7 7).store 1).high.ptr).index <
      (nodeL (mgrInit 2 7 7).store 1).index :=
  ((ordering_invariant_max (mgrInit 2 7 7)
      (Reachable.init 2 7 7 (by decide) (by decide))).2.2 1
      (by decide) (by decide)).1
